import Mathlib

/-!
Program `go_esx_exec`: deploy, run and clean up a test binary on a remote host.

A shallow embedding of `misc/esx/go_esx_exec.go`.

Go strings are modelled as lists of characters.  Every separator the program
looks at (`/`, `:`, ` `, `%`) is a single ASCII byte, so working on characters
instead of bytes does not change any result.

The remote host, the transport and the local file system are external: they
appear as an explicit world state (the remote file table plus the trace of
requests made) and as a `Server` / `LocalFS` record giving the answers of the
outside world.  Process control follows Go: a `return` from `main` and a
`panic` both run the deferred calls, `os.Exit` and `log.Fatal` do not.
-/

namespace GoEsxExec

/-- A Go string. -/
abbrev Str := List Char

/-- File contents. -/
abbrev Bytes := List Nat

/-! ## The library functions the program calls -/

/-- Go `strings.HasPrefix(s, p)`. -/
def hasPrefix : Str → Str → Bool
  | _, [] => true
  | [], _ :: _ => false
  | c :: s, d :: p => c == d && hasPrefix s p

/-- Go `strings.TrimPrefix(s, p)`: `s` without the leading `p`, or `s` itself. -/
def trimPrefix (s p : Str) : Str :=
  if hasPrefix s p then s.drop p.length else s

/-- Scanning loop of `strings.Replace(s, old, new, -1)` for a non-empty `old`;
`skip` counts the characters of a match that are still to be passed over. -/
def replaceGo (old new : Str) : Str → Nat → Str
  | [], _ => []
  | _ :: s, skip + 1 => replaceGo old new s skip
  | c :: s, 0 =>
    if hasPrefix (c :: s) old then new ++ replaceGo old new s (old.length - 1)
    else c :: replaceGo old new s 0

/-- Go `strings.Replace(s, old, new, -1)`.  With an empty `old` Go inserts
`new` before every character and at the end. -/
def stringsReplace (s old new : Str) : Str :=
  match old with
  | [] => new ++ (s.map (fun c => c :: new)).flatten
  | _ :: _ => replaceGo old new s 0

/-- Scanning loop of `strings.Split(s, sep)` for a non-empty `sep`: `cur` is the
piece being read (reversed). -/
def splitGo (sep : Str) : Str → Nat → Str → List Str
  | [], _, cur => [cur.reverse]
  | _ :: s, skip + 1, cur => splitGo sep s skip cur
  | c :: s, 0, cur =>
    if hasPrefix (c :: s) sep then cur.reverse :: splitGo sep s (sep.length - 1) []
    else splitGo sep s 0 (c :: cur)

/-- Go `strings.Split(s, sep)`. -/
def stringsSplit (s sep : Str) : List Str :=
  match sep with
  | [] => s.map (fun c => [c])
  | _ :: _ => splitGo sep s 0 []

/-- Go `strings.Join(elems, sep)`. -/
def stringsJoin : List Str → Str → Str
  | [], _ => []
  | [a], _ => a
  | a :: b :: rest, sep => a ++ sep ++ stringsJoin (b :: rest) sep

/-- One step of `filepath.Clean` on the stack of kept elements (last element
first).  `..` removes the last real element; when there is none it is kept on
a relative path and dropped on a rooted one. -/
def cleanStep (rooted : Bool) (stack : List Str) (elem : Str) : List Str :=
  if elem = [] ∨ elem = ['.'] then stack
  else if elem = ['.', '.'] then
    match stack with
    | [] => if rooted then [] else [elem]
    | top :: below => if top = ['.', '.'] then elem :: top :: below else below
  else elem :: stack

/-- Go `filepath.Clean` (Unix): the shortest equivalent path by purely lexical
processing. -/
def filepathClean (path : Str) : Str :=
  if path = [] then ['.']
  else
    let rooted := hasPrefix path ['/']
    let kept := ((stringsSplit path ['/']).foldl (cleanStep rooted) []).reverse
    let out := (if rooted then ['/'] else []) ++ stringsJoin kept ['/']
    if out = [] then ['.'] else out

/-- Go `filepath.Join`: leading empty elements are ignored, the rest is joined
with `/` and cleaned; all-empty gives the empty string. -/
def filepathJoin (elem : List Str) : Str :=
  match elem.dropWhile (fun e => e.isEmpty) with
  | [] => []
  | rest => filepathClean (stringsJoin rest ['/'])

/-- Number of characters of `path` up to and including its last `/`
(0 when there is none): `i+1` for the index `i` found by `filepath.Split`. -/
def lastSlashEnd : Str → Nat → Nat → Nat
  | [], _, found => found
  | c :: s, pos, found => lastSlashEnd s (pos + 1) (if c = '/' then pos + 1 else found)

/-- Go `filepath.Split`: splits immediately after the final separator. -/
def filepathSplit (path : Str) : Str × Str :=
  let i := lastSlashEnd path 0 0
  (path.take i, path.drop i)

/-- Go `filepath.SplitList` (Unix): the empty string gives no element. -/
def filepathSplitList (path : Str) : List Str :=
  if path = [] then [] else stringsSplit path [':']

/-- The element loop of `filepath.Rel`.  `base` and `targ` are the parts of
the two cleaned paths from the current element on.  The result is
`(base[b0:bi], base[b0:], targ[t0:])` at the end of the loop. -/
def relLoop : Nat → Str → Str → Str × Str × Str
  | 0, base, targ => ([], base, targ)
  | fuel + 1, base, targ =>
    if base = [] ∨ targ = [] then ([], base, targ)
    else
      let bw := base.takeWhile (fun c => c != '/')
      let tw := targ.takeWhile (fun c => c != '/')
      if tw ≠ bw then (bw, base, targ)
      else relLoop fuel ((base.drop bw.length).drop 1) ((targ.drop tw.length).drop 1)

/-- Go `filepath.Rel(basepath, targpath)` (Unix); `none` is the error result. -/
def filepathRel (basepath targpath : Str) : Option Str :=
  let base := filepathClean basepath
  let targ := filepathClean targpath
  if targ = base then some ['.']
  else
    let base := if base = ['.'] then [] else base
    if hasPrefix base ['/'] ≠ hasPrefix targ ['/'] then none
    else
      match relLoop (base.length + 1) base targ with
      | (elem, baseRest, targRest) =>
        if elem = ['.', '.'] then none
        else if baseRest ≠ [] then
          let seps := baseRest.count '/'
          some (['.', '.'] ++ (List.replicate seps ['/', '.', '.']).flatten
            ++ (if targRest ≠ [] then '/' :: targRest else []))
        else some targRest

/-- Argument of a formatting call. -/
inductive FmtArg
  | str (s : Str)
  | int (n : Int)

/-- Decimal rendering of an `int`, as the verb `%d` prints it. -/
def fmtInt (n : Int) : Str :=
  if n < 0 then '-' :: Nat.toDigits 10 n.natAbs else Nat.toDigits 10 n.natAbs

/-- Go `fmt.Sprintf` for the verbs the program uses: `%s` with a string and
`%d` with an int take the next argument; every other character is copied. -/
def sprintf : Str → List FmtArg → Str
  | [], _ => []
  | [c], _ => [c]
  | c :: v :: rest, args =>
    if c = '%' ∧ v = 's' then
      match args with
      | FmtArg.str s :: more => s ++ sprintf rest more
      | _ => c :: v :: sprintf rest args
    else if c = '%' ∧ v = 'd' then
      match args with
      | FmtArg.int n :: more => fmtInt n ++ sprintf rest more
      | _ => c :: v :: sprintf rest args
    else c :: sprintf (v :: rest) args

/-! ## The outside world -/

/-- What `Mode().IsDir()` and `Mode().IsRegular()` tell about a file. -/
inductive FileKind
  | dir
  | regular
  | other
  deriving DecidableEq, Repr

/-- Result of `os.Stat`: the kind of the file and its mode bits. -/
structure FileInfo where
  kind : FileKind
  mode : Nat
  deriving DecidableEq, Repr

/-- An entry of the remote file table. -/
inductive Node
  | dir
  | file (content : Bytes) (mode : Nat)
  deriving DecidableEq, Repr

/-- The remote file table: the paths that exist, each with its entry.  Paths
are kept as the program sends them. -/
structure RemoteFS where
  entries : List (Str × Node)

/-- The entry at a path, `none` when nothing exists there. -/
def RemoteFS.get (fs : RemoteFS) (p : Str) : Option Node :=
  (fs.entries.find? (fun e => e.1 = p)).map (fun e => e.2)

instance : CoeFun RemoteFS (fun _ => Str → Option Node) :=
  ⟨RemoteFS.get⟩

/-- A request sent to the remote host. -/
inductive Event
  | dial (addr : Str)
  | sftpNewClient (id : Nat)
  | sftpClose (id : Nat)
  | sftpCreate (path : Str)
  | sftpWrite (path : Str) (data : Bytes)
  | sftpChmod (path : Str) (mode : Nat)
  | sftpStat (path : Str)
  | sftpMkdir (path : Str)
  | sftpRemove (path : Str)
  | newSession
  | sessionRun (cmd : Str)
  | sessionClose
  deriving DecidableEq, Repr

/-- The answers of the remote host that the program cannot influence. -/
structure Server where
  /-- Whether `ssh.Dial` to the address succeeds. -/
  dialOk : Str → Bool
  /-- Whether the k-th `sftp.NewClient` on the connection succeeds. -/
  sftpOk : Nat → Bool
  /-- Whether `NewSession` succeeds. -/
  sessionOk : Bool
  /-- File requests the server rejects whatever the state of its table. -/
  refuses : Event → Bool
  /-- Mode bits of a newly created file. -/
  createMode : Nat
  /-- Whether `session.Run` of the command reports an error. -/
  runErr : Str → Bool
  /-- What the remote command does to the file table. -/
  runEffect : Str → RemoteFS → RemoteFS

/-- State of the remote side together with the requests made so far. -/
structure World where
  fs : RemoteFS
  trace : List Event
  /-- Number of `sftp.NewClient` calls so far. -/
  clients : Nat

/-- The file table with the entry at `p` replaced, or dropped for `none`. -/
def setNode (fs : RemoteFS) (p : Str) (n : Option Node) : RemoteFS :=
  match n with
  | some x => ⟨(p, x) :: fs.entries.filter (fun e => e.1 ≠ p)⟩
  | none => ⟨fs.entries.filter (fun e => e.1 ≠ p)⟩

/-- The directory a remote path lies in: the text before its last `/`, the
root `/` for a path directly below the root, and `none` for a path without
`/`, which lies in the working directory of the server. -/
def parentDir (p : Str) : Option Str :=
  if (filepathSplit p).1 = [] then none
  else if (filepathSplit p).1 = ['/'] then some ['/']
  else some (filepathSplit p).1.dropLast

/-- Whether the directory a path lies in exists. -/
def parentExists (fs : RemoteFS) (p : Str) : Bool :=
  match parentDir p with
  | none => true
  | some d => decide (fs d = some Node.dir)

/-- Whether some path of the table lies in the directory `d`. -/
def hasChildren (fs : RemoteFS) (d : Str) : Bool :=
  fs.entries.any (fun e => decide (parentDir e.1 = some d))

/-- Records a request in the trace. -/
def World.log (w : World) (e : Event) : World :=
  { w with trace := w.trace ++ [e] }

/-- Result of a piece of the program: it returns, ends the process
(`os.Exit`, `log.Fatal`: deferred calls do not run), or panics (deferred calls
run while the stack unwinds). -/
inductive Outcome (α : Type)
  | ok (a : α) (w : World)
  | exit (code : Nat) (w : World)
  | panic (w : World)

/-- The world in which a piece of the program stopped. -/
def Outcome.world {α : Type} : Outcome α → World
  | .ok _ w => w
  | .exit _ w => w
  | .panic w => w

/-- `sftp.Stat`: succeeds when the path exists. -/
def sftpStat (srv : Server) (p : Str) (w : World) : Bool × World :=
  (!srv.refuses (.sftpStat p) && (w.fs p).isSome, w.log (.sftpStat p))

/-- `sftp.Mkdir`: fails when the path exists already or the directory it lies
in does not exist. -/
def sftpMkdir (srv : Server) (p : Str) (w : World) : Bool × World :=
  if srv.refuses (.sftpMkdir p) || (w.fs p).isSome || !parentExists w.fs p then
    (false, w.log (.sftpMkdir p))
  else (true, { w.log (.sftpMkdir p) with fs := setNode w.fs p (some Node.dir) })

/-- `sftp.Create`: creates the file or truncates an existing one; it fails
when the directory the path lies in does not exist, and a directory cannot be
opened for writing. -/
def sftpCreate (srv : Server) (p : Str) (w : World) : Bool × World :=
  if srv.refuses (.sftpCreate p) || !parentExists w.fs p then (false, w.log (.sftpCreate p))
  else
    match w.fs p with
    | some Node.dir => (false, w.log (.sftpCreate p))
    | some (Node.file _ m) =>
      (true, { w.log (.sftpCreate p) with fs := setNode w.fs p (some (Node.file [] m)) })
    | none =>
      (true, { w.log (.sftpCreate p) with
                fs := setNode w.fs p (some (Node.file [] srv.createMode)) })

/-- `f.Write(buf)` on the handle just returned by `sftp.Create`: writes `buf`
at offset 0. -/
def sftpWrite (srv : Server) (p : Str) (buf : Bytes) (w : World) : Bool × World :=
  if srv.refuses (.sftpWrite p buf) then (false, w.log (.sftpWrite p buf))
  else
    match w.fs p with
    | some (Node.file c m) =>
      (true, { w.log (.sftpWrite p buf) with
                fs := setNode w.fs p (some (Node.file (buf ++ c.drop buf.length) m)) })
    | _ => (false, w.log (.sftpWrite p buf))

/-- `sftp.Chmod`. -/
def sftpChmod (srv : Server) (p : Str) (mode : Nat) (w : World) : Bool × World :=
  if srv.refuses (.sftpChmod p mode) then (false, w.log (.sftpChmod p mode))
  else
    match w.fs p with
    | some (Node.file c _) =>
      (true, { w.log (.sftpChmod p mode) with fs := setNode w.fs p (some (Node.file c mode)) })
    | some Node.dir => (true, w.log (.sftpChmod p mode))
    | none => (false, w.log (.sftpChmod p mode))

/-- `sftp.Remove`: removes a file, or a directory in which nothing lies. -/
def sftpRemove (srv : Server) (p : Str) (w : World) : Bool × World :=
  if srv.refuses (.sftpRemove p) then (false, w.log (.sftpRemove p))
  else
    match w.fs p with
    | some (Node.file _ _) => (true, { w.log (.sftpRemove p) with fs := setNode w.fs p none })
    | some Node.dir =>
      if hasChildren w.fs p then (false, w.log (.sftpRemove p))
      else (true, { w.log (.sftpRemove p) with fs := setNode w.fs p none })
    | none => (false, w.log (.sftpRemove p))

mutual
/-- A local file tree as `filepath.Walk` sees it (through `Lstat`). -/
inductive Tree
  | file
  | other
  | dir (readable : Bool) (kids : Forest)
  | broken
/-- The entries of a directory, in the order `Walk` reads them. -/
inductive Forest
  | nil
  | cons (name : Str) (t : Tree) (rest : Forest)
end

/-- One call of the walk function: the path, and the kind of the entry or
`none` when `Walk` passes an error. -/
structure WalkEntry where
  path : Str
  kind : Option FileKind
  deriving DecidableEq, Repr

mutual
/-- The calls `filepath.Walk` makes for a tree at `path`, in order, when no
call returns an error. -/
def walk (path : Str) : Tree → List WalkEntry
  | .file => [⟨path, some .regular⟩]
  | .other => [⟨path, some .other⟩]
  | .broken => [⟨path, none⟩]
  | .dir true kids => ⟨path, some .dir⟩ :: walkKids path kids
  | .dir false _ => [⟨path, some .dir⟩, ⟨path, none⟩]
/-- The calls for the entries of the directory `path`. -/
def walkKids (path : Str) : Forest → List WalkEntry
  | .nil => []
  | .cons name t rest => walk (filepathJoin [path, name]) t ++ walkKids path rest
end

/-- The local file system. -/
structure LocalFS where
  /-- Result of `os.Stat`; `none` is an error. -/
  stat : Str → Option FileInfo
  /-- Result of `ioutil.ReadFile`; `none` is an error. -/
  readFile : Str → Option Bytes
  /-- The tree `filepath.Walk` finds at a root. -/
  tree : Str → Tree

/-- What the process is started with.  The flags are given as parsed from the
`ESX` variable; the flags `-user` and `-passwd` and the key file only feed the
authentication methods handed to `ssh.Dial`, whose answer is part of the
`Server`. -/
structure Sys where
  /-- Contents of `os.Args`. -/
  args : List Str
  /-- Result of `os.Getwd`; `none` is an error. -/
  cwd : Option Str
  /-- Value of `runtime.GOROOT()`. -/
  goroot : Str
  /-- Value of `build.Default.GOPATH`. -/
  gopath : Str
  /-- Value of the flag `-esx` after parsing the `ESX` variable. -/
  esx : Str
  /-- Value of the flag `-root`. -/
  rootdir : Str
  /-- Value of the flag `-keep`. -/
  keep : Bool
  /-- Value of the flag `-mem`. -/
  mem : Int
  /-- The local file system. -/
  lfs : LocalFS

/-! ## The program -/

/-- The fields of the global `config` that the rest of the program reads. -/
structure Config where
  esx : Str
  rootdir : Str
  testdir : Str
  remote : Str
  keep : Bool
  mem : Int

/-- The loop of `subdir` over the entries of GOPATH. -/
def subdirGopath (cwd : Str) : List Str → Option (Str × Bool)
  | [] => none
  | p :: ps =>
    if !hasPrefix cwd p then subdirGopath cwd ps
    else
      match filepathRel p cwd with
      | some s => some (s, false)
      | none => subdirGopath cwd ps

/-- Function `subdir`: the path of the working directory relative to GOROOT or
to an entry of GOPATH; `none` stands for the `log.Fatal` exits. -/
def subdir (cwd : Option Str) (goroot gopath : Str) : Option (Str × Bool) :=
  match cwd with
  | none => none
  | some cwd =>
    if hasPrefix cwd goroot then
      match filepathRel goroot cwd with
      | some s => some (s, true)
      | none => none
    else subdirGopath cwd (filepathSplitList gopath)

/-- The remote name `getConfig` derives from the subdirectory and the binary
argument. -/
def remoteName (sub bin : Str) : Str :=
  stringsReplace
    (filepathJoin [trimPrefix sub "src/".toList, (filepathSplit bin).2])
    "/".toList "_".toList

/-- Function `getConfig`.  `subdir` may end the process; `os.Args[1]` panics
when there is no argument. -/
def getConfig (sys : Sys) (w : World) : Outcome Config :=
  match subdir sys.cwd sys.goroot sys.gopath with
  | none => .exit 1 w
  | some (sub, _) =>
    match sys.args with
    | _ :: bin :: _ =>
      .ok { esx := sys.esx, rootdir := sys.rootdir,
            testdir := filepathJoin [sys.rootdir, sub],
            remote := remoteName sub bin,
            keep := sys.keep, mem := sys.mem } w
    | _ => .panic w

/-- Function `put`: uploads one file and sets its mode; the result of
`sftp.Chmod` is dropped. -/
def put (srv : Server) (lfs : LocalFS) (src remote : Str) (w : World) : Outcome Unit :=
  match lfs.stat src with
  | none => .exit 1 w
  | some st =>
    match lfs.readFile src with
    | none => .exit 1 w
    | some buf =>
      match sftpCreate srv remote w with
      | (false, w1) => .exit 1 w1
      | (true, w1) =>
        match sftpWrite srv remote buf w1 with
        | (false, w2) => .exit 1 w2
        | (true, w2) => .ok () (sftpChmod srv remote st.mode w2).2

/-- The pattern of `putdir`: `Stat` one path and, when that fails, `Mkdir`
another; a failing `Mkdir` is `log.Panic`. -/
def ensureDir (srv : Server) (statPath mkdirPath : Str) (w : World) : Outcome Unit :=
  match sftpStat srv statPath w with
  | (true, w1) => .ok () w1
  | (false, w1) =>
    match sftpMkdir srv mkdirPath w1 with
    | (true, w2) => .ok () w2
    | (false, w2) => .panic w2

/-- The directories the first loop of `putdir` looks at:
`"/" + filepath.Join(parts[:i]...)` for `i` from 2 to `len(parts)`. -/
def chainDirs (remote : Str) : List Str :=
  let parts := stringsSplit remote "/".toList
  (List.range (parts.length - 1)).map (fun k => '/' :: filepathJoin (parts.take (k + 2)))

/-- The first loop of `putdir`. -/
def putdirChain (srv : Server) : List Str → World → Outcome Unit
  | [], w => .ok () w
  | d :: ds, w =>
    match ensureDir srv d d w with
    | .ok _ w1 => putdirChain srv ds w1
    | .exit c w1 => .exit c w1
    | .panic w1 => .panic w1

/-- The walk function of `putdir`; the result `false` is a non-nil error
returned to `Walk`. -/
def walkFn (srv : Server) (lfs : LocalFS) (cfg : Config) (remote : Str) (e : WalkEntry)
    (w : World) : Outcome Bool :=
  match e.kind with
  | none => .ok false w
  | some .dir =>
    match ensureDir srv (cfg.testdir ++ "/".toList ++ e.path)
        (remote ++ "/".toList ++ e.path) w with
    | .ok _ w1 => .ok true w1
    | .exit c w1 => .exit c w1
    | .panic w1 => .panic w1
  | some .regular =>
    match put srv lfs e.path (cfg.testdir ++ "/".toList ++ e.path) w with
    | .ok _ w1 => .ok true w1
    | .exit c w1 => .exit c w1
    | .panic w1 => .panic w1
  | some .other => .ok true w

/-- `filepath.Walk` calling the walk function: it stops at the first call that
returns an error, and its own result is dropped by `putdir`. -/
def putdirWalk (srv : Server) (lfs : LocalFS) (cfg : Config) (remote : Str) :
    List WalkEntry → World → Outcome Unit
  | [], w => .ok () w
  | e :: es, w =>
    match walkFn srv lfs cfg remote e w with
    | .ok true w1 => putdirWalk srv lfs cfg remote es w1
    | .ok false w1 => .ok () w1
    | .exit c w1 => .exit c w1
    | .panic w1 => .panic w1

/-- Function `putdir`. -/
def putdir (srv : Server) (lfs : LocalFS) (cfg : Config) (src remote : Str) (w : World) :
    Outcome Unit :=
  match lfs.stat src with
  | some ⟨.dir, _⟩ =>
    match putdirChain srv (chainDirs remote) w with
    | .ok _ w1 => putdirWalk srv lfs cfg remote (walk src (lfs.tree src)) w1
    | .exit c w1 => .exit c w1
    | .panic w1 => .panic w1
  | _ => .ok () w

/-- Function `remove`: opens its own file-transfer client, asks for the removal
and drops the answer; the deferred `Close` runs on return. -/
def remove (srv : Server) (remote : Str) (w : World) : Outcome Unit :=
  let id := w.clients
  let w1 := { w.log (.sftpNewClient id) with clients := id + 1 }
  if srv.sftpOk id then
    .ok () (((sftpRemove srv remote w1).2).log (.sftpClose id))
  else .exit 1 w1

/-- The command line built by `run`. -/
def runCommand (cfg : Config) (prog : Str) (args : List Str) : Str :=
  let rp :=
    if cfg.mem ≠ 0 then
      sprintf "/usr/lib/vmware/rp/bin/runInRP --max %d ".toList [.int cfg.mem]
    else []
  sprintf "mkdir -p %s && cd %s && %s%s ".toList
      [.str cfg.testdir, .str cfg.testdir, .str rp, .str prog]
    ++ stringsJoin args " ".toList

/-- Function `run`: the result `true` is a non-nil error of `session.Run`.
A failing `NewSession` panics before the `Close` is deferred. -/
def run (srv : Server) (cfg : Config) (prog : Str) (args : List Str) (w : World) :
    Outcome Bool :=
  let w1 := w.log .newSession
  if srv.sessionOk then
    let cmd := runCommand cfg prog args
    let w2 := { w1.log (.sessionRun cmd) with fs := srv.runEffect cmd w1.fs }
    .ok (srv.runErr cmd) (w2.log .sessionClose)
  else .panic w1

/-- The part of `main` from the upload to the call of `run`: the result is the
error flag of `run`. -/
def deployAndRun (srv : Server) (sys : Sys) (cfg : Config) (w : World) : Outcome Bool :=
  let remote := filepathJoin [cfg.rootdir, cfg.remote]
  match put srv sys.lfs (sys.args.getD 1 []) remote w with
  | .exit c w1 => .exit c w1
  | .panic w1 => .panic w1
  | .ok _ w1 =>
    match putdir srv sys.lfs cfg "testdata".toList cfg.testdir w1 with
    | .exit c w2 => .exit c w2
    | .panic w2 => .panic w2
    | .ok _ w2 => run srv cfg remote (sys.args.drop 2) w2

/-- The end of `main` once `run` has returned: the conditional cleanup and the
exit status taken from the result of `run`. -/
def finish (srv : Server) (cfg : Config) (err : Bool) (w : World) : Outcome Unit :=
  let remote := filepathJoin [cfg.rootdir, cfg.remote]
  let cleaned : Outcome Unit :=
    if !cfg.keep && !err then remove srv remote w else .ok () w
  match cleaned with
  | .exit c w1 => .exit c w1
  | .panic w1 => .panic w1
  | .ok _ w1 => if err then .exit 1 w1 else .ok () w1

/-- The body of `main` after `defer sftp.Close()`. -/
def mainBody (srv : Server) (sys : Sys) (cfg : Config) (w : World) : Outcome Unit :=
  match deployAndRun srv sys cfg w with
  | .exit c w1 => .exit c w1
  | .panic w1 => .panic w1
  | .ok err w1 => finish srv cfg err w1

/-- How the process ended: its exit status and the final world. -/
structure Final where
  status : Nat
  world : World

/-- A piece of the program with the deferred `sftp.Close()` of client `id`:
the call runs on return and on panic, not on `os.Exit`. -/
def withDeferredClose (id : Nat) : Outcome Unit → Outcome Unit
  | .ok a w => .ok a (w.log (.sftpClose id))
  | .panic w => .panic (w.log (.sftpClose id))
  | .exit c w => .exit c w

/-- The end of the process: status 0 after a return from `main`, the given
status after `os.Exit`, status 2 after a panic. -/
def Outcome.final : Outcome Unit → Final
  | .ok _ w => ⟨0, w⟩
  | .exit c w => ⟨c, w⟩
  | .panic w => ⟨2, w⟩

/-- Function `main`. -/
def main (srv : Server) (sys : Sys) (w : World) : Final :=
  match getConfig sys w with
  | .exit c w1 => ⟨c, w1⟩
  | .panic w1 => ⟨2, w1⟩
  | .ok cfg w1 =>
    let addr := sprintf "%s:22".toList [.str cfg.esx]
    let w2 := w1.log (.dial addr)
    if srv.dialOk addr then
      let id := w2.clients
      let w3 := { w2.log (.sftpNewClient id) with clients := id + 1 }
      if srv.sftpOk id then
        (withDeferredClose id (mainBody srv sys cfg w3)).final
      else ⟨1, w3⟩
    else ⟨2, w2⟩

/-! ## The remote name as the specification words it -/

/-- The last path component of the binary argument: the text after its final
`/`. -/
def lastComponent (b : Str) : Str :=
  b.rtakeWhile (fun c => c != '/')

/-- The subdirectory with one leading `src/` stripped. -/
def stripSrc (s : Str) : Str :=
  if "src/".toList <+: s then s.drop 4 else s

/-- Every path separator flattened to an underscore. -/
def flattenSeparators (s : Str) : Str :=
  s.map (fun c => if c = '/' then '_' else c)

/-- The remote name of the specification: the last component of the binary
argument, path-joined onto the stripped subdirectory, separators flattened. -/
def specRemoteName (sub bin : Str) : Str :=
  flattenSeparators (filepathJoin [stripSrc sub, lastComponent bin])

/-! ## A concrete invocation

The binary `./t.test` is run from `/home/u/go/src/pkg/sub` with GOPATH
`/home/u/go`; the directory `testdata` holds a file, a subdirectory and, inside
it, a symbolic link. -/

/-- A host that accepts every request; the remote command succeeds and leaves
the file table alone. -/
def demoServer : Server :=
  { dialOk := fun _ => true
    sftpOk := fun _ => true
    sessionOk := true
    refuses := fun _ => false
    createMode := 420
    runErr := fun _ => false
    runEffect := fun _ fs => fs }

/-- Results of `os.Stat` in the example. -/
def demoStat (p : Str) : Option FileInfo :=
  if p = "./t.test".toList then some ⟨.regular, 493⟩
  else if p = "testdata".toList then some ⟨.dir, 493⟩
  else if p = "testdata/a.txt".toList then some ⟨.regular, 420⟩
  else none

/-- Results of `ioutil.ReadFile` in the example. -/
def demoRead (p : Str) : Option Bytes :=
  if p = "./t.test".toList then some [127, 69, 76, 70]
  else if p = "testdata/a.txt".toList then some [104, 105]
  else none

/-- The tree below `testdata` in the example. -/
def demoTree (p : Str) : Tree :=
  if p = "testdata".toList then
    Tree.dir true
      (Forest.cons "a.txt".toList Tree.file
        (Forest.cons "d".toList
          (Tree.dir true (Forest.cons "link".toList Tree.other Forest.nil))
          Forest.nil))
  else Tree.broken

/-- The local file system of the example. -/
def demoLocal : LocalFS :=
  { stat := demoStat, readFile := demoRead, tree := demoTree }

/-- The invocation of the example. -/
def demoSys : Sys :=
  { args := ["go_esx_exec".toList, "./t.test".toList]
    cwd := some "/home/u/go/src/pkg/sub".toList
    goroot := "/usr/local/go".toList
    gopath := "/home/u/go".toList
    esx := "esx1".toList
    rootdir := "/tmp".toList
    keep := false
    mem := 0
    lfs := demoLocal }

/-- The invocation of the example with the GOPATH list `/home/u:/home/u/go`. -/
def earlierEntrySys : Sys :=
  { demoSys with gopath := "/home/u:/home/u/go".toList }

/-- The invocation of the example with GOROOT `/home/u/g`, a string prefix of
the working directory that does not contain it. -/
def prefixGorootSys : Sys :=
  { demoSys with goroot := "/home/u/g".toList }

/-- The configuration `getConfig` builds in the example. -/
def demoConfig : Config :=
  { esx := "esx1".toList
    rootdir := "/tmp".toList
    testdir := "/tmp/src/pkg/sub".toList
    remote := "pkg_sub_t.test".toList
    keep := false
    mem := 0 }

/-- A remote host on which only the root directory and `/tmp` exist, before
any request. -/
def demoWorld : World :=
  { fs := ⟨[("/".toList, Node.dir), ("/tmp".toList, Node.dir)]⟩, trace := [], clients := 0 }

/-! ## Vocabulary for statements about traces -/

/-- A request to remove a remote file. -/
def Event.isRemove : Event → Bool
  | .sftpRemove _ => true
  | _ => false

/-- World `w1` is reached from `w` by making further requests, none of them a
removal. -/
def Grows (w w1 : World) : Prop :=
  ∃ s, w1.trace = w.trace ++ s ∧ ∀ e ∈ s, e.isRemove = false

/-- The value a piece of the program returned, if it returned. -/
def Outcome.result {α : Type} : Outcome α → Option α
  | .ok a _ => some a
  | _ => none

/-- The world in which the body of `main` starts once `ssh.Dial` and
`sftp.NewClient` have succeeded; the client opened has number `w.clients`. -/
def connected (cfg : Config) (w : World) : World :=
  { (w.log (.dial (sprintf "%s:22".toList [.str cfg.esx]))).log (.sftpNewClient w.clients) with
    clients := w.clients + 1 }

/-- A host on which only the first file-transfer client can be opened. -/
def oneClientServer : Server :=
  { demoServer with sftpOk := fun k => k == 0 }

/-- A host on which the remote command fails. -/
def failingRunServer : Server :=
  { demoServer with runErr := fun _ => true }

/-- A host that rejects every request to change a file mode. -/
def noChmodServer : Server :=
  { demoServer with
    refuses := fun e =>
      match e with
      | .sftpChmod _ _ => true
      | _ => false }

/-- A host that rejects every request to create a file. -/
def noCreateServer : Server :=
  { demoServer with
    refuses := fun e =>
      match e with
      | .sftpCreate _ => true
      | _ => false }

/-- An invocation from `/usr/local/gopher`, a directory beside GOROOT
`/usr/local/go`, with an empty GOPATH. -/
def besideGorootSys : Sys :=
  { demoSys with cwd := some "/usr/local/gopher".toList, gopath := [] }

/-! ## Vocabulary for mirroring a directory -/

/-- The calls of the walk function that `filepath.Walk` makes before the first
one that passes an error. -/
def visited (es : List WalkEntry) : List WalkEntry :=
  es.takeWhile (fun e => e.kind.isSome)

/-- What mirroring leaves on the remote side for a walked entry: a directory
for a directory, the local bytes and mode for a regular file, nothing for any
other entry. -/
def mirrorNode (lfs : LocalFS) (e : WalkEntry) : Option Node :=
  match e.kind with
  | some .dir => some Node.dir
  | some .regular =>
    match lfs.stat e.path, lfs.readFile e.path with
    | some st, some buf => some (Node.file buf st.mode)
    | _, _ => none
  | _ => none

/-! ## Vocabulary for directory trees and remote directories -/

/-- A name as a directory holds it: not empty, without separator, and neither
`.` nor `..`. -/
def plainName (n : Str) : Bool :=
  decide (n ≠ [] ∧ '/' ∉ n ∧ n ≠ ['.'] ∧ n ≠ ['.', '.'])

/-- The names of the entries of a directory. -/
def Forest.names : Forest → List Str
  | .nil => []
  | .cons name _ rest => name :: rest.names

mutual
/-- A tree as a file system holds it: in every directory the names are plain
and no name occurs twice. -/
def Tree.wellFormed : Tree → Bool
  | .dir _ kids => kids.wellFormed
  | _ => true
/-- The entries of a directory of a well-formed tree. -/
def Forest.wellFormed : Forest → Bool
  | .nil => true
  | .cons name t rest =>
    plainName name && decide (name ∉ rest.names) && t.wellFormed && rest.wellFormed
end

/-- The paths `base/n1`, `base/n1/n2`, ... for the names given. -/
def prefixDirs (base : Str) : List Str → List Str
  | [] => []
  | n :: ns => (base ++ '/' :: n) :: prefixDirs (base ++ '/' :: n) ns

/-- Each directory or regular file of the list lies in a directory that is
one of `known` or the remote path of a directory earlier in the list. -/
def parentsFirst (root : Str) : List Str → List WalkEntry → Prop
  | _, [] => True
  | known, e :: es =>
    ((e.kind = some .dir ∨ e.kind = some .regular) →
        ∃ d ∈ known, parentDir (root ++ "/".toList ++ e.path) = some d)
      ∧ parentsFirst root
          (if e.kind = some .dir then (root ++ "/".toList ++ e.path) :: known else known) es

/-- The requests `putdir` makes for a walked entry when nothing exists at its
remote path: `Stat` and `Mkdir` for a directory, `Create`, `Write` and `Chmod`
for a regular file that can be read, none for any other entry. -/
def entryRequests (lfs : LocalFS) (root : Str) (e : WalkEntry) : List Event :=
  match e.kind with
  | some .dir =>
    [.sftpStat (root ++ "/".toList ++ e.path), .sftpMkdir (root ++ "/".toList ++ e.path)]
  | some .regular =>
    match lfs.stat e.path, lfs.readFile e.path with
    | some st, some buf =>
      [.sftpCreate (root ++ "/".toList ++ e.path), .sftpWrite (root ++ "/".toList ++ e.path) buf,
        .sftpChmod (root ++ "/".toList ++ e.path) st.mode]
    | _, _ => []
  | _ => []

/-- The remote path a file request is about. -/
def Event.target : Event → Option Str
  | .sftpCreate p => some p
  | .sftpWrite p _ => some p
  | .sftpChmod p _ => some p
  | .sftpStat p => some p
  | .sftpMkdir p => some p
  | .sftpRemove p => some p
  | _ => none

/-! ## Inputs on which mirroring is incomplete -/

/-- Whether a piece of the program ended in a panic. -/
def Outcome.panicked {α : Type} : Outcome α → Bool
  | .panic _ => true
  | _ => false

/-- Whether a piece of the program ended the process. -/
def Outcome.exited {α : Type} : Outcome α → Bool
  | .exit _ _ => true
  | _ => false

/-- A directory `testdata` holding the file `a.txt`, the directory `d` that
cannot be read, and the file `e.txt`. -/
def blockedTree : Tree :=
  Tree.dir true
    (Forest.cons "a.txt".toList Tree.file
      (Forest.cons "d".toList (Tree.dir false Forest.nil)
        (Forest.cons "e.txt".toList Tree.file Forest.nil)))

/-- A local file system with the tree `blockedTree` at `testdata`; both files
can be read. -/
def blockedLocal : LocalFS :=
  { stat := fun p =>
      if p = "testdata".toList then some ⟨.dir, 493⟩
      else if p = "testdata/a.txt".toList then some ⟨.regular, 420⟩
      else if p = "testdata/e.txt".toList then some ⟨.regular, 420⟩
      else none
    readFile := fun p =>
      if p = "testdata/a.txt".toList then some [104, 105]
      else if p = "testdata/e.txt".toList then some [98, 121, 101]
      else none
    tree := fun _ => blockedTree }

/-- The local file system of the example, except that `testdata/a.txt` cannot
be read. -/
def unreadableLocal : LocalFS :=
  { demoLocal with readFile := fun _ => none }

/-- A local file system in which the directory `fixtures/data` exists and is
empty. -/
def nestedLocal : LocalFS :=
  { stat := fun p => if p = "fixtures/data".toList then some ⟨.dir, 493⟩ else none
    readFile := fun _ => none
    tree := fun _ => Tree.dir true Forest.nil }

/-- A host that rejects every request to make a directory. -/
def noMkdirServer : Server :=
  { demoServer with
    refuses := fun e =>
      match e with
      | .sftpMkdir _ => true
      | _ => false }

/-- The configuration of the example with the relative root directory `work`. -/
def relativeConfig : Config :=
  { demoConfig with rootdir := "work".toList, testdir := "work/src/pkg/sub".toList }

/-- The host of the example with a file at `/tmp/src`. -/
def fileInWayWorld : World :=
  { fs := ⟨[("/".toList, Node.dir), ("/tmp".toList, Node.dir),
            ("/tmp/src".toList, Node.file [] 420)]⟩,
    trace := [], clients := 0 }

/-! ## Facts about the library functions -/

theorem hasPrefix_iff (s p : Str) : hasPrefix s p = true ↔ p <+: s := by
  induction p generalizing s with
  | nil => simp [hasPrefix]
  | cons d p ih =>
    cases s with
    | nil => simp [hasPrefix]
    | cons c s =>
      simp only [hasPrefix, Bool.and_eq_true, beq_iff_eq, ih, List.cons_prefix_cons]
      constructor
      · rintro ⟨h1, h2⟩
        exact ⟨h1.symm, h2⟩
      · rintro ⟨h1, h2⟩
        exact ⟨h1.symm, h2⟩

theorem stringsJoin_eq_intercalate (xs : List Str) (sep : Str) :
    stringsJoin xs sep = sep.intercalate xs := by
  induction xs with
  | nil => rfl
  | cons a rest ih =>
    cases rest with
    | nil => simp [stringsJoin, List.intercalate]
    | cons b more =>
      simp only [stringsJoin, ih]
      simp [List.intercalate, List.intersperse]

theorem replaceGo_slash (s : Str) :
    replaceGo ['/'] ['_'] s 0 = s.map (fun c => if c = '/' then '_' else c) := by
  induction s with
  | nil => simp [replaceGo]
  | cons c s ih =>
    simp only [replaceGo]
    by_cases h : c = '/'
    · subst h
      simp [hasPrefix, ih]
    · have hp : hasPrefix (c :: s) ['/'] = false := by simp [hasPrefix, h]
      simp [hp, ih, h]

theorem stringsReplace_slash (s : Str) :
    stringsReplace s "/".toList "_".toList = flattenSeparators s := by
  simp [stringsReplace, flattenSeparators, replaceGo_slash]

theorem flattenSeparators_no_slash (s : Str) : '/' ∉ flattenSeparators s := by
  simp only [flattenSeparators, List.mem_map, not_exists, not_and]
  intro c _
  by_cases h : c = '/'
  · simp [h]
  · simp [h]

theorem lastSlashEnd_drop (s pre : Str) (found : Nat) (hle : found ≤ pre.length)
    (hpre : pre.drop found = pre.rtakeWhile (fun c => c != '/')) :
    (pre ++ s).drop (lastSlashEnd s pre.length found)
      = (pre ++ s).rtakeWhile (fun c => c != '/') := by
  induction s generalizing pre found with
  | nil => simpa [lastSlashEnd] using hpre
  | cons c t ih =>
    have h := ih (pre ++ [c]) (if c = '/' then pre.length + 1 else found)
      (by split <;> simp; omega)
      (by
        rw [List.rtakeWhile_concat]
        by_cases hc : c = '/'
        · simp [hc]
        · simp [hc, ← hpre, List.drop_append_of_le_length hle])
    simpa [lastSlashEnd] using h

theorem filepathSplit_file (b : Str) : (filepathSplit b).2 = lastComponent b := by
  have h := lastSlashEnd_drop b [] 0 (by simp) (by simp)
  simpa [filepathSplit, lastComponent] using h

theorem trimPrefix_src (s : Str) : trimPrefix s "src/".toList = stripSrc s := by
  unfold trimPrefix stripSrc
  by_cases h : hasPrefix s "src/".toList = true
  · rw [if_pos h, if_pos ((hasPrefix_iff _ _).1 h)]
    rfl
  · rw [if_neg h, if_neg (fun h' => h ((hasPrefix_iff _ _).2 h'))]

theorem remoteName_eq_spec (sub bin : Str) : remoteName sub bin = specRemoteName sub bin := by
  unfold remoteName specRemoteName
  rw [stringsReplace_slash, filepathSplit_file, trimPrefix_src]

theorem runCommand_eq (cfg : Config) (prog : Str) (args : List Str) :
    runCommand cfg prog args =
      "mkdir -p ".toList ++ cfg.testdir ++ " && cd ".toList ++ cfg.testdir ++ " && ".toList
        ++ (if cfg.mem = 0 then []
            else "/usr/lib/vmware/rp/bin/runInRP --max ".toList ++ fmtInt cfg.mem ++ " ".toList)
        ++ prog ++ " ".toList ++ " ".toList.intercalate args := by
  simp only [runCommand, stringsJoin_eq_intercalate]
  by_cases h : cfg.mem = 0
  · simp [h, sprintf]
  · simp [h, sprintf]

theorem getConfig_demo : getConfig demoSys demoWorld = .ok demoConfig demoWorld := by
  rfl

/-! ## The remote file table -/

theorem get_filter (l : List (Str × Node)) (p q : Str) :
    (RemoteFS.mk (l.filter (fun e => e.1 ≠ p))).get q
      = if q = p then none else (RemoteFS.mk l).get q := by
  induction l with
  | nil => simp [RemoteFS.get]
  | cons a l ih =>
    simp only [RemoteFS.get] at ih ⊢
    by_cases ha : a.1 = p
    · rw [List.filter_cons_of_neg (by simpa using ha), ih]
      by_cases hq : q = p
      · simp [hq]
      · have hne : ¬ a.1 = q := fun h => hq (h.symm.trans ha)
        simp [hq, List.find?_cons, hne]
    · rw [List.filter_cons_of_pos (by simpa using ha)]
      by_cases hq : q = p
      · have hne : ¬ a.1 = q := fun h => ha (h.trans hq)
        have hih : Option.map (fun e => e.2)
            (List.find? (fun e => decide (e.1 = q)) (List.filter (fun e => decide (e.1 ≠ p)) l))
            = none := by
          rw [ih, if_pos hq]
        simp only [List.find?_cons, hne, decide_False, hih, if_pos hq]
      · by_cases haq : a.1 = q
        · simp [List.find?_cons, haq, hq]
        · simp only [List.find?_cons, haq, decide_False, ih, if_neg hq]

/-- Reading the table after an entry was replaced. -/
theorem setNode_get (fs : RemoteFS) (p q : Str) (n : Option Node) :
    (setNode fs p n) q = if q = p then n else fs q := by
  cases n with
  | none => exact get_filter fs.entries p q
  | some x =>
    have h := get_filter fs.entries p q
    simp only [setNode]
    by_cases hq : q = p
    · subst hq
      simp [RemoteFS.get]
    · have hne : ¬ p = q := fun h => hq h.symm
      rw [if_neg hq] at h ⊢
      simp only [RemoteFS.get, List.find?_cons, hne, decide_False] at h ⊢
      exact h

/-! ## How the program extends the trace -/

theorem Grows.refl (w : World) : Grows w w :=
  ⟨[], by simp, by simp⟩

theorem Grows.trans {w w1 w2 : World} (h1 : Grows w w1) (h2 : Grows w1 w2) : Grows w w2 := by
  obtain ⟨s1, e1, p1⟩ := h1
  obtain ⟨s2, e2, p2⟩ := h2
  refine ⟨s1 ++ s2, by rw [e2, e1, List.append_assoc], ?_⟩
  intro e he
  rcases List.mem_append.1 he with h | h
  · exact p1 e h
  · exact p2 e h

theorem Grows.of_trace {w w1 w2 : World} (h : Grows w w1) (ht : w2.trace = w1.trace) :
    Grows w w2 := by
  obtain ⟨s, e, p⟩ := h
  exact ⟨s, by rw [ht, e], p⟩

theorem Grows.log (w : World) (e : Event) (he : e.isRemove = false) : Grows w (w.log e) :=
  ⟨[e], rfl, by simpa using he⟩

theorem Grows.is_prefix {w w1 : World} (h : Grows w w1) : w.trace <+: w1.trace := by
  obtain ⟨s, e, _⟩ := h
  exact ⟨s, e.symm⟩

theorem sftpStat_grows (srv : Server) (p : Str) (w : World) : Grows w (sftpStat srv p w).2 :=
  Grows.log w _ rfl

theorem sftpMkdir_grows (srv : Server) (p : Str) (w : World) : Grows w (sftpMkdir srv p w).2 := by
  unfold sftpMkdir
  split
  · exact Grows.log w _ rfl
  · exact (Grows.log w (.sftpMkdir p) rfl).of_trace rfl

theorem sftpCreate_grows (srv : Server) (p : Str) (w : World) :
    Grows (w.log (.sftpCreate p)) (sftpCreate srv p w).2 := by
  unfold sftpCreate
  split
  · exact Grows.refl _
  · split
    · exact Grows.refl _
    · exact (Grows.refl _).of_trace rfl
    · exact (Grows.refl _).of_trace rfl

theorem sftpWrite_grows (srv : Server) (p : Str) (buf : Bytes) (w : World) :
    Grows w (sftpWrite srv p buf w).2 := by
  unfold sftpWrite
  split
  · exact Grows.log w _ rfl
  · split
    · exact (Grows.log w (.sftpWrite p buf) rfl).of_trace rfl
    · exact Grows.log w _ rfl

theorem sftpChmod_grows (srv : Server) (p : Str) (m : Nat) (w : World) :
    Grows w (sftpChmod srv p m w).2 := by
  unfold sftpChmod
  split
  · exact Grows.log w _ rfl
  · split
    · exact (Grows.log w (.sftpChmod p m) rfl).of_trace rfl
    · exact Grows.log w _ rfl
    · exact Grows.log w _ rfl

/-- Once the local file is read, `put` starts with the request to create the
remote file. -/
theorem put_starts (srv : Server) (lfs : LocalFS) (src remote : Str) (w : World)
    (st : FileInfo) (buf : Bytes) (hs : lfs.stat src = some st)
    (hr : lfs.readFile src = some buf) :
    Grows (w.log (.sftpCreate remote)) (put srv lfs src remote w).world := by
  unfold put
  simp only [hs, hr]
  have hc := sftpCreate_grows srv remote w
  rcases hcr : sftpCreate srv remote w with ⟨okc, w1⟩
  rw [hcr] at hc
  cases okc
  · exact hc
  · dsimp only
    have hw := sftpWrite_grows srv remote buf w1
    rcases hwr : sftpWrite srv remote buf w1 with ⟨okw, w2⟩
    rw [hwr] at hw
    cases okw
    · exact hc.trans hw
    · exact (hc.trans hw).trans (sftpChmod_grows srv remote st.mode w2)

theorem put_grows (srv : Server) (lfs : LocalFS) (src remote : Str) (w : World) :
    Grows w (put srv lfs src remote w).world := by
  cases hs : lfs.stat src with
  | none => simp [put, hs, Outcome.world, Grows.refl]
  | some st =>
    cases hr : lfs.readFile src with
    | none => simp [put, hs, hr, Outcome.world, Grows.refl]
    | some buf =>
      exact (Grows.log w (.sftpCreate remote) rfl).trans
        (put_starts srv lfs src remote w st buf hs hr)

theorem ensureDir_grows (srv : Server) (p q : Str) (w : World) :
    Grows w (ensureDir srv p q w).world := by
  unfold ensureDir
  have hs := sftpStat_grows srv p w
  rcases hsr : sftpStat srv p w with ⟨oks, w1⟩
  rw [hsr] at hs
  cases oks
  · dsimp only
    have hm := sftpMkdir_grows srv q w1
    rcases hmr : sftpMkdir srv q w1 with ⟨okm, w2⟩
    rw [hmr] at hm
    cases okm <;> exact hs.trans hm
  · exact hs

theorem putdirChain_grows (srv : Server) (ds : List Str) (w : World) :
    Grows w (putdirChain srv ds w).world := by
  induction ds generalizing w with
  | nil => exact Grows.refl w
  | cons d ds ih =>
    have h := ensureDir_grows srv d d w
    unfold putdirChain
    cases he : ensureDir srv d d w with
    | ok a w1 =>
      rw [he] at h
      exact h.trans (ih w1)
    | exit c w1 =>
      rw [he] at h
      exact h
    | panic w1 =>
      rw [he] at h
      exact h

theorem walkFn_grows (srv : Server) (lfs : LocalFS) (cfg : Config) (remote : Str)
    (e : WalkEntry) (w : World) : Grows w (walkFn srv lfs cfg remote e w).world := by
  unfold walkFn
  split
  · exact Grows.refl w
  · have h := ensureDir_grows srv (cfg.testdir ++ "/".toList ++ e.path)
      (remote ++ "/".toList ++ e.path) w
    split <;> rename_i he <;> rw [he] at h <;> exact h
  · have h := put_grows srv lfs e.path (cfg.testdir ++ "/".toList ++ e.path) w
    split <;> rename_i he <;> rw [he] at h <;> exact h
  · exact Grows.refl w

theorem putdirWalk_grows (srv : Server) (lfs : LocalFS) (cfg : Config) (remote : Str)
    (es : List WalkEntry) (w : World) :
    Grows w (putdirWalk srv lfs cfg remote es w).world := by
  induction es generalizing w with
  | nil => exact Grows.refl w
  | cons e es ih =>
    have h := walkFn_grows srv lfs cfg remote e w
    unfold putdirWalk
    split <;> rename_i he <;> rw [he] at h
    · exact h.trans (ih _)
    · exact h
    · exact h
    · exact h

theorem putdir_grows (srv : Server) (lfs : LocalFS) (cfg : Config) (src remote : Str)
    (w : World) : Grows w (putdir srv lfs cfg src remote w).world := by
  unfold putdir
  split
  · have h := putdirChain_grows srv (chainDirs remote) w
    split <;> rename_i he <;> rw [he] at h
    · exact h.trans (putdirWalk_grows srv lfs cfg remote _ _)
    · exact h
    · exact h
  · exact Grows.refl w

theorem run_grows (srv : Server) (cfg : Config) (prog : Str) (args : List Str) (w : World) :
    Grows w (run srv cfg prog args w).world := by
  unfold run
  split
  · refine ⟨[.newSession, .sessionRun (runCommand cfg prog args), .sessionClose], ?_, ?_⟩
    · simp [Outcome.world, World.log]
    · intro e he
      simp at he
      rcases he with h | h | h <;> subst h <;> rfl
  · exact Grows.log w _ rfl

/-- From the upload to the return of `run` no removal is requested. -/
theorem deployAndRun_grows (srv : Server) (sys : Sys) (cfg : Config) (w : World) :
    Grows w (deployAndRun srv sys cfg w).world := by
  unfold deployAndRun
  have hp := put_grows srv sys.lfs (sys.args.getD 1 []) (filepathJoin [cfg.rootdir, cfg.remote]) w
  simp only
  split <;> rename_i he <;> rw [he] at hp
  · exact hp
  · exact hp
  · rename_i w1
    have hd := putdir_grows srv sys.lfs cfg "testdata".toList cfg.testdir w1
    split <;> rename_i hd' <;> rw [hd'] at hd
    · exact hp.trans hd
    · exact hp.trans hd
    · exact (hp.trans hd).trans (run_grows srv cfg _ _ _)

/-! ## `filepath.Rel` below its base -/

theorem word_decomp (s : Str) :
    ∃ a b, s = a ++ b ∧ '/' ∉ a ∧ (b = [] ∨ ∃ b1, b = '/' :: b1) := by
  induction s with
  | nil => exact ⟨[], [], rfl, by simp, Or.inl rfl⟩
  | cons c s ih =>
    by_cases hc : c = '/'
    · exact ⟨[], c :: s, rfl, by simp, Or.inr ⟨s, by rw [hc]⟩⟩
    · obtain ⟨a, b, hs, ha, hb⟩ := ih
      refine ⟨c :: a, b, by rw [hs]; rfl, ?_, hb⟩
      simp only [List.mem_cons, not_or]
      exact ⟨fun h => hc h.symm, ha⟩

theorem takeWhile_word (a r : Str) (ha : '/' ∉ a) :
    (a ++ '/' :: r).takeWhile (fun c => c != '/') = a := by
  induction a with
  | nil => simp [List.takeWhile]
  | cons c a ih =>
    simp only [List.mem_cons, not_or] at ha
    have hc : (c != '/') = true := by
      simpa using fun h => ha.1 h.symm
    simp [List.takeWhile, hc, ih ha.2]

theorem takeWhile_whole (a : Str) (ha : '/' ∉ a) :
    a.takeWhile (fun c => c != '/') = a := by
  induction a with
  | nil => rfl
  | cons c a ih =>
    simp only [List.mem_cons, not_or] at ha
    have hc : (c != '/') = true := by
      simpa using fun h => ha.1 h.symm
    simp [List.takeWhile, hc, ih ha.2]

/-- The element loop of `Rel` on a base and a target that continues the base
after a separator: every element of the base is matched and the rest of the
target is left. -/
theorem relLoop_below (n : Nat) : ∀ (base r : Str) (fuel : Nat), base.length ≤ n →
    base.length < fuel → base ≠ [] → base.getLast? ≠ some '/' →
    relLoop fuel base (base ++ '/' :: r) = ([], [], r) := by
  induction n with
  | zero =>
    intro base r fuel hn _ hne _
    exact absurd (List.length_eq_zero.1 (Nat.le_zero.1 hn)) hne
  | succ n ih =>
    intro base r fuel hn hf hne hlast
    obtain ⟨fuel, rfl⟩ : ∃ k, fuel = k + 1 := ⟨fuel - 1, by omega⟩
    obtain ⟨a, b, hs, ha, hb⟩ := word_decomp base
    have htarg : base ++ '/' :: r ≠ [] := by simp
    rcases hb with hb | ⟨b1, hb⟩
    · subst hb
      simp only [List.append_nil] at hs
      subst hs
      have h1 : (base ++ '/' :: r).takeWhile (fun c => c != '/') = base :=
        takeWhile_word base r ha
      have h2 : base.takeWhile (fun c => c != '/') = base := takeWhile_whole base ha
      unfold relLoop
      simp only [hne, htarg, or_self, if_false, h1, h2, ne_eq, not_true_eq_false]
      simp only [List.drop_length, List.drop_nil, List.drop_left]
      cases fuel <;> simp [relLoop]
    · subst hb
      subst hs
      have hb1 : b1 ≠ [] := by
        intro h
        subst h
        simp at hlast
      have hlast1 : b1.getLast? ≠ some '/' := by
        intro h
        apply hlast
        obtain ⟨c, b2, hb2⟩ := List.exists_cons_of_ne_nil hb1
        rw [List.getLast?_append, hb2, List.getLast?_cons_cons, ← hb2, h]
        rfl
      have h1 : (a ++ '/' :: b1 ++ '/' :: r).takeWhile (fun c => c != '/') = a := by
        rw [List.append_assoc]
        exact takeWhile_word a _ ha
      have h2 : (a ++ '/' :: b1).takeWhile (fun c => c != '/') = a := takeWhile_word a b1 ha
      unfold relLoop
      simp only [hne, htarg, or_self, if_false, h1, h2, ne_eq, not_true_eq_false]
      have e1 : List.drop 1 (List.drop a.length (a ++ '/' :: b1)) = b1 := by simp
      have e2 : List.drop 1 (List.drop a.length (a ++ '/' :: b1 ++ '/' :: r))
          = b1 ++ '/' :: r := by
        simp
      rw [e1, e2]
      apply ih b1 r fuel
      · simp at hn
        omega
      · simp at hf
        omega
      · exact hb1
      · exact hlast1

/-- For a clean absolute base that does not end in a separator, `Rel` of a
clean path continuing the base after a separator is the continuation. -/
theorem filepathRel_below (g r : Str) (habs : hasPrefix g "/".toList = true)
    (hlast : g.getLast? ≠ some '/') (hg : filepathClean g = g)
    (hc : filepathClean (g ++ '/' :: r) = g ++ '/' :: r) :
    filepathRel g (g ++ '/' :: r) = some r := by
  obtain ⟨g1, hg1⟩ : ∃ g1, g = '/' :: g1 := by
    cases g with
    | nil => simp [hasPrefix] at habs
    | cons c g1 =>
      simp [hasPrefix] at habs
      exact ⟨g1, by rw [habs]⟩
  have hne : g ≠ [] := by simp [hg1]
  have hloop := relLoop_below g.length g r (g.length + 1) (le_refl _) (by omega) hne hlast
  unfold filepathRel
  simp only [hg, hc]
  have hneq : g ++ '/' :: r ≠ g := by
    intro h
    have := congrArg List.length h
    simp at this
  have hdot : g ≠ ['.'] := by simp [hg1]
  have hp : hasPrefix (g ++ '/' :: r) ['/'] = true := by simp [hg1, hasPrefix]
  have habs1 : hasPrefix g ['/'] = true := habs
  simp [hneq, hdot, hp, habs1, hloop]

theorem subdirGopath_found (cwd g s : Str) (pre post : List Str)
    (hpre : ∀ q ∈ pre, hasPrefix cwd q = false) (hg : hasPrefix cwd g = true)
    (hrel : filepathRel g cwd = some s) :
    subdirGopath cwd (pre ++ g :: post) = some (s, false) := by
  induction pre with
  | nil => simp [subdirGopath, hg, hrel]
  | cons q pre ih =>
    have hq := hpre q (by simp)
    simp only [List.cons_append, subdirGopath, hq, Bool.not_false, if_true]
    exact ih (fun x hx => hpre x (by simp [hx]))

theorem hasPrefix_append (a b : Str) : hasPrefix (a ++ b) a = true :=
  (hasPrefix_iff _ _).2 (List.prefix_append a b)

/-! ## The directories of the first loop of `putdir` are not below the remote root -/

theorem stringsJoin_cons (a : Str) (xs : List Str) (sep : Str) (hx : xs ≠ []) :
    stringsJoin (a :: xs) sep = a ++ sep ++ stringsJoin xs sep := by
  cases xs with
  | nil => exact absurd rfl hx
  | cons b rest => rfl

theorem stringsJoin_length (xs : List Str) (hx : xs ≠ []) :
    (stringsJoin xs ['/']).length + 1 = (xs.map (fun x => x.length + 1)).sum := by
  induction xs with
  | nil => exact absurd rfl hx
  | cons a xs ih =>
    cases xs with
    | nil => simp [stringsJoin]
    | cons b rest =>
      rw [stringsJoin_cons a (b :: rest) _ (by simp)]
      have h := ih (by simp)
      simp only [List.length_append, List.map_cons, List.sum_cons, List.length_singleton] at h ⊢
      omega

theorem stringsJoin_length_le (xs ys : List Str) (h : List.Sublist ys xs) :
    (stringsJoin ys ['/']).length ≤ (stringsJoin xs ['/']).length := by
  cases ys with
  | nil => simp [stringsJoin]
  | cons b ys =>
    have hx : xs ≠ [] := by
      intro hx
      subst hx
      simp at h
    have h1 := stringsJoin_length (b :: ys) (by simp)
    have h2 := stringsJoin_length xs hx
    have h3 : ((b :: ys).map (fun x => x.length + 1)).sum ≤ (xs.map (fun x => x.length + 1)).sum :=
      (h.map _).sum_le_sum (fun _ _ => Nat.zero_le _)
    omega

theorem splitGo_ne_nil (s cur : Str) : splitGo ['/'] s 0 cur ≠ [] := by
  induction s generalizing cur with
  | nil => simp [splitGo]
  | cons c s ih =>
    unfold splitGo
    split
    · simp
    · exact ih _

theorem splitGo_join (s cur : Str) :
    stringsJoin (splitGo ['/'] s 0 cur) ['/'] = cur.reverse ++ s := by
  induction s generalizing cur with
  | nil => simp [splitGo, stringsJoin]
  | cons c s ih =>
    unfold splitGo
    by_cases hc : c = '/'
    · subst hc
      have hp : hasPrefix ('/' :: s) ['/'] = true := by simp [hasPrefix]
      rw [if_pos hp]
      simp only [List.length_singleton, Nat.sub_self]
      rw [stringsJoin_cons _ _ _ (splitGo_ne_nil s []), ih]
      simp
    · have hp : ¬ hasPrefix (c :: s) ['/'] = true := by simp [hasPrefix, hc]
      rw [if_neg hp, ih]
      simp

theorem cleanStep_measure (rooted : Bool) (stack : List Str) (elem : Str) :
    ((cleanStep rooted stack elem).map (fun x => x.length + 1)).sum
      ≤ (stack.map (fun x => x.length + 1)).sum + (elem.length + 1) := by
  unfold cleanStep
  split
  · omega
  · split
    · cases stack with
      | nil => cases rooted <;> simp
      | cons top below =>
        dsimp only
        split
        · simp
          omega
        · simp
          omega
    · simp
      omega

theorem cleanFold_measure (rooted : Bool) (parts : List Str) (stack : List Str) :
    ((parts.foldl (cleanStep rooted) stack).map (fun x => x.length + 1)).sum
      ≤ (stack.map (fun x => x.length + 1)).sum + (parts.map (fun x => x.length + 1)).sum := by
  induction parts generalizing stack with
  | nil => simp
  | cons e parts ih =>
    have h1 := ih (cleanStep rooted stack e)
    have h2 := cleanStep_measure rooted stack e
    simp only [List.foldl_cons, List.map_cons, List.sum_cons]
    omega

/-- `filepath.Clean` never lengthens a non-empty path. -/
theorem filepathClean_length (s : Str) (hs : s ≠ []) : (filepathClean s).length ≤ s.length := by
  obtain ⟨c, s1, rfl⟩ := List.exists_cons_of_ne_nil hs
  unfold filepathClean
  rw [if_neg hs]
  by_cases hc : c = '/'
  · subst hc
    have hr : hasPrefix ('/' :: s1) ['/'] = true := by simp [hasPrefix]
    have hsplit : stringsSplit ('/' :: s1) ['/'] = [] :: splitGo ['/'] s1 0 [] := by
      simp [stringsSplit, splitGo, hasPrefix]
    simp only [hr, hsplit, if_true, List.foldl_cons]
    have hstep : cleanStep true [] [] = [] := by simp [cleanStep]
    rw [hstep]
    have hm := cleanFold_measure true (splitGo ['/'] s1 0 []) []
    have hj := stringsJoin_length (splitGo ['/'] s1 0 []) (splitGo_ne_nil s1 [])
    rw [splitGo_join] at hj
    simp only [List.reverse_nil, List.nil_append, List.map_nil, List.sum_nil, Nat.zero_add] at hj hm
    rw [if_neg (by simp)]
    generalize hk : (List.foldl (cleanStep true) [] (splitGo ['/'] s1 0 [])).reverse = kept at hm ⊢
    have hrev : (kept.map (fun x => x.length + 1)).sum
        = ((List.foldl (cleanStep true) [] (splitGo ['/'] s1 0 [])).map
            (fun x => x.length + 1)).sum := by
      rw [← hk, List.map_reverse, List.sum_reverse]
    cases kept with
    | nil => simp [stringsJoin]
    | cons k ks =>
      have hl := stringsJoin_length (k :: ks) (by simp)
      simp only [List.length_append, List.length_singleton, List.length_cons,
        List.length_nil] at hl ⊢
      omega
  · have hr : hasPrefix (c :: s1) ['/'] = false := by simp [hasPrefix, hc]
    simp only [hr, Bool.false_eq_true, if_false, List.nil_append]
    have hsplit : stringsSplit (c :: s1) ['/'] = splitGo ['/'] (c :: s1) 0 [] := rfl
    have hm := cleanFold_measure false (splitGo ['/'] (c :: s1) 0 []) []
    have hj := stringsJoin_length (splitGo ['/'] (c :: s1) 0 []) (splitGo_ne_nil _ [])
    rw [splitGo_join] at hj
    simp only [List.reverse_nil, List.nil_append, List.map_nil, List.sum_nil, Nat.zero_add,
      List.length_cons] at hj hm
    rw [hsplit]
    generalize hk : (List.foldl (cleanStep false) [] (splitGo ['/'] (c :: s1) 0 [])).reverse
      = kept at hm ⊢
    have hrev : (kept.map (fun x => x.length + 1)).sum
        = ((List.foldl (cleanStep false) [] (splitGo ['/'] (c :: s1) 0 [])).map
            (fun x => x.length + 1)).sum := by
      rw [← hk, List.map_reverse, List.sum_reverse]
    split
    · simp
    · cases kept with
      | nil => simp [stringsJoin]
      | cons k ks =>
        have hl := stringsJoin_length (k :: ks) (by simp)
        simp only [List.length_cons] at hl ⊢
        omega

theorem filepathJoin_length (xs : List Str) :
    (filepathJoin xs).length ≤ (stringsJoin xs ['/']).length := by
  unfold filepathJoin
  have hsub : List.Sublist (xs.dropWhile (fun e => e.isEmpty)) xs :=
    (List.dropWhile_suffix _).sublist
  cases hd : xs.dropWhile (fun e => e.isEmpty) with
  | nil => simp
  | cons a rest =>
    rw [hd] at hsub
    have ha : a ≠ [] := by
      have h := List.head_dropWhile_not (fun e : Str => e.isEmpty) xs (by simp [hd])
      simp only [hd, List.head_cons] at h
      intro h0
      subst h0
      simp at h
    have hne : stringsJoin (a :: rest) ['/'] ≠ [] := by
      cases rest with
      | nil => simpa [stringsJoin] using ha
      | cons b more =>
        rw [stringsJoin_cons a (b :: more) _ (by simp)]
        simp [ha]
    exact le_trans (filepathClean_length _ hne) (stringsJoin_length_le xs (a :: rest) hsub)

/-- No directory of the first loop of `putdir` is a path below the remote
root. -/
theorem chainDirs_not_below (remote : Str) :
    ∀ d ∈ chainDirs remote, ¬ (remote ++ "/".toList <+: d) := by
  intro d hd hpre
  unfold chainDirs at hd
  simp only [List.mem_map, List.mem_range] at hd
  obtain ⟨k, _, hk⟩ := hd
  subst hk
  cases remote with
  | nil => simp [stringsSplit, splitGo] at *
  | cons c r =>
    have hcons : (c :: r) ++ "/".toList = c :: (r ++ ['/']) := rfl
    rw [hcons, List.cons_prefix_cons] at hpre
    obtain ⟨hc, hp⟩ := hpre
    subst hc
    have hsplit : stringsSplit ('/' :: r) "/".toList = [] :: splitGo ['/'] r 0 [] := by
      simp [stringsSplit, splitGo, hasPrefix]
    rw [hsplit] at hp
    have htake : ([] :: splitGo ['/'] r 0 []).take (k + 2)
        = [] :: (splitGo ['/'] r 0 []).take (k + 1) := rfl
    rw [htake] at hp
    have hjoin : filepathJoin ([] :: (splitGo ['/'] r 0 []).take (k + 1))
        = filepathJoin ((splitGo ['/'] r 0 []).take (k + 1)) := by
      simp [filepathJoin, List.dropWhile]
    rw [hjoin] at hp
    have h1 := filepathJoin_length ((splitGo ['/'] r 0 []).take (k + 1))
    have h2 := stringsJoin_length_le (splitGo ['/'] r 0 []) ((splitGo ['/'] r 0 []).take (k + 1))
      (List.take_sublist _ _)
    rw [splitGo_join] at h2
    have h3 := hp.length_le
    simp only [List.length_append, List.length_singleton, List.reverse_nil, List.nil_append]
      at h2 h3
    omega

/-! ## `filepath.Clean` and `filepath.Split` on plain paths -/

theorem plainName_iff (n : Str) :
    plainName n = true ↔ n ≠ [] ∧ '/' ∉ n ∧ n ≠ ['.'] ∧ n ≠ ['.', '.'] := by
  simp [plainName]

theorem splitGo_cons (c : Char) (s cur : Str) :
    splitGo ['/'] (c :: s) 0 cur
      = if c = '/' then cur.reverse :: splitGo ['/'] s 0 [] else splitGo ['/'] s 0 (c :: cur) := by
  conv_lhs => unfold splitGo
  by_cases hc : c = '/' <;> simp [hasPrefix, hc]

theorem hasPrefix_slash_cons (c : Char) (s : Str) :
    hasPrefix (c :: s) ['/'] = decide (c = '/') := by
  by_cases hc : c = '/' <;> simp [hasPrefix, hc]

theorem splitGo_plain (n cur : Str) (hn : '/' ∉ n) :
    splitGo ['/'] n 0 cur = [cur.reverse ++ n] := by
  induction n generalizing cur with
  | nil => simp [splitGo]
  | cons c n ih =>
    simp only [List.mem_cons, not_or] at hn
    have hc : ¬ c = '/' := fun h => hn.1 h.symm
    rw [splitGo_cons, if_neg hc, ih _ hn.2]
    simp

theorem splitGo_word (n rest cur : Str) (hn : '/' ∉ n) :
    splitGo ['/'] (n ++ '/' :: rest) 0 cur
      = (cur.reverse ++ n) :: splitGo ['/'] rest 0 [] := by
  induction n generalizing cur with
  | nil =>
    simp only [List.nil_append, List.append_nil]
    rw [splitGo_cons, if_pos rfl]
  | cons c n ih =>
    simp only [List.mem_cons, not_or] at hn
    have hc : ¬ c = '/' := fun h => hn.1 h.symm
    simp only [List.cons_append]
    rw [splitGo_cons, if_neg hc, ih _ hn.2]
    simp

theorem split_join (xs : List Str) (hx : xs ≠ []) (hs : ∀ x ∈ xs, '/' ∉ x) :
    splitGo ['/'] (stringsJoin xs ['/']) 0 [] = xs := by
  induction xs with
  | nil => exact absurd rfl hx
  | cons a xs ih =>
    cases xs with
    | nil =>
      simp only [stringsJoin]
      rw [splitGo_plain a [] (hs a (by simp))]
      simp
    | cons b rest =>
      rw [stringsJoin_cons a (b :: rest) _ (by simp)]
      have h1 : a ++ ['/'] ++ stringsJoin (b :: rest) ['/']
          = a ++ '/' :: stringsJoin (b :: rest) ['/'] := by simp
      rw [h1, splitGo_word a _ [] (hs a (by simp)),
        ih (by simp) (fun x hx => hs x (List.mem_cons_of_mem _ hx))]
      simp

theorem stringsJoin_snoc (xs : List Str) (n sep : Str) (hx : xs ≠ []) :
    stringsJoin (xs ++ [n]) sep = stringsJoin xs sep ++ sep ++ n := by
  induction xs with
  | nil => exact absurd rfl hx
  | cons a xs ih =>
    cases xs with
    | nil => simp [stringsJoin]
    | cons b rest =>
      have h1 : (a :: b :: rest) ++ [n] = a :: ((b :: rest) ++ [n]) := rfl
      rw [h1, stringsJoin_cons a _ sep (by simp), ih (by simp),
        stringsJoin_cons a (b :: rest) sep (by simp)]
      simp

theorem cleanFold_plain (rooted : Bool) (xs stack : List Str)
    (hs : ∀ x ∈ xs, plainName x = true) :
    xs.foldl (cleanStep rooted) stack = xs.reverse ++ stack := by
  induction xs generalizing stack with
  | nil => rfl
  | cons a xs ih =>
    obtain ⟨h1, -, h3, h4⟩ := (plainName_iff a).1 (hs a (by simp))
    have hstep : cleanStep rooted stack a = a :: stack := by
      simp [cleanStep, h1, h3, h4]
    rw [List.foldl_cons, hstep, ih _ (fun x hx => hs x (List.mem_cons_of_mem _ hx))]
    simp

theorem stringsJoin_head (a : Str) (xs : List Str) :
    ∃ t, stringsJoin (a :: xs) ['/'] = a ++ t := by
  cases xs with
  | nil => exact ⟨[], by simp [stringsJoin]⟩
  | cons b rest =>
    exact ⟨['/'] ++ stringsJoin (b :: rest) ['/'],
      by rw [stringsJoin_cons a (b :: rest) _ (by simp)]; simp⟩

/-- A relative path of plain names is clean. -/
theorem filepathClean_join (xs : List Str) (hx : xs ≠ [])
    (hs : ∀ x ∈ xs, plainName x = true) :
    filepathClean (stringsJoin xs ['/']) = stringsJoin xs ['/'] := by
  obtain ⟨a, rest, rfl⟩ := List.exists_cons_of_ne_nil hx
  obtain ⟨ha1, ha2, -, -⟩ := (plainName_iff a).1 (hs a (by simp))
  obtain ⟨c, a1, rfl⟩ := List.exists_cons_of_ne_nil ha1
  obtain ⟨t, ht⟩ := stringsJoin_head (c :: a1) rest
  have hc : ¬ c = '/' := fun h => ha2 (by simp [h])
  have hne : stringsJoin ((c :: a1) :: rest) ['/'] ≠ [] := by
    rw [ht]
    simp
  have hroot : hasPrefix (stringsJoin ((c :: a1) :: rest) ['/']) ['/'] = false := by
    rw [ht, List.cons_append, hasPrefix_slash_cons]
    simpa using hc
  have hsplit : stringsSplit (stringsJoin ((c :: a1) :: rest) ['/']) ['/']
      = (c :: a1) :: rest :=
    split_join _ (by simp) (fun x hx => ((plainName_iff x).1 (hs x hx)).2.1)
  unfold filepathClean
  rw [if_neg hne]
  simp only [hroot, hsplit, Bool.false_eq_true, if_false, List.nil_append]
  rw [cleanFold_plain false _ [] hs]
  simp only [List.append_nil, List.reverse_reverse]
  rw [if_neg hne]

theorem filepathJoin_plain (xs : List Str) (hx : xs ≠ [])
    (hs : ∀ x ∈ xs, plainName x = true) :
    filepathJoin xs = stringsJoin xs ['/'] := by
  obtain ⟨a, rest, rfl⟩ := List.exists_cons_of_ne_nil hx
  obtain ⟨ha1, -⟩ := (plainName_iff a).1 (hs a (by simp))
  obtain ⟨c, a1, rfl⟩ := List.exists_cons_of_ne_nil ha1
  unfold filepathJoin
  simp only [List.dropWhile, List.isEmpty]
  exact filepathClean_join _ (by simp) hs

/-- `Walk` names an entry of a directory by its path, a separator and the
name of the entry. -/
theorem filepathJoin_child (comps : List Str) (n : Str) (hx : comps ≠ [])
    (hs : ∀ x ∈ comps, plainName x = true) (hn : plainName n = true) :
    filepathJoin [stringsJoin comps ['/'], n] = stringsJoin (comps ++ [n]) ['/'] := by
  obtain ⟨a, rest, rfl⟩ := List.exists_cons_of_ne_nil hx
  obtain ⟨ha1, -⟩ := (plainName_iff a).1 (hs a (by simp))
  obtain ⟨c, a1, rfl⟩ := List.exists_cons_of_ne_nil ha1
  obtain ⟨t, ht⟩ := stringsJoin_head (c :: a1) rest
  have hall : ∀ x ∈ ((c :: a1) :: rest) ++ [n], plainName x = true := by
    intro x hx
    rcases List.mem_append.1 hx with h | h
    · exact hs x h
    · simp at h
      rw [h]
      exact hn
  unfold filepathJoin
  rw [ht]
  simp only [List.cons_append, List.dropWhile, List.isEmpty]
  rw [← List.cons_append, ← ht]
  have hj : stringsJoin [stringsJoin ((c :: a1) :: rest) ['/'], n] ['/']
      = stringsJoin (((c :: a1) :: rest) ++ [n]) ['/'] := by
    rw [stringsJoin_snoc _ n _ (by simp)]
    simp [stringsJoin]
  rw [hj]
  exact filepathClean_join _ (by simp) hall

theorem rtakeWhile_word (x n : Str) (hn : '/' ∉ n) :
    (x ++ '/' :: n).rtakeWhile (fun c => c != '/') = n := by
  unfold List.rtakeWhile
  have h : (x ++ '/' :: n).reverse = n.reverse ++ '/' :: x.reverse := by simp
  rw [h, takeWhile_word n.reverse x.reverse (by simpa using hn)]
  simp

theorem filepathSplit_child (x n : Str) (hn : '/' ∉ n) :
    (filepathSplit (x ++ '/' :: n)).1 = x ++ ['/'] := by
  have h2 : (filepathSplit (x ++ '/' :: n)).2 = n := by
    rw [filepathSplit_file]
    exact rtakeWhile_word x n hn
  have h := List.take_append_drop (lastSlashEnd (x ++ '/' :: n) 0 0) (x ++ '/' :: n)
  have h1 : (filepathSplit (x ++ '/' :: n)).1
      = (x ++ '/' :: n).take (lastSlashEnd (x ++ '/' :: n) 0 0) := rfl
  have h3 : (filepathSplit (x ++ '/' :: n)).2
      = (x ++ '/' :: n).drop (lastSlashEnd (x ++ '/' :: n) 0 0) := rfl
  rw [← h1, ← h3, h2] at h
  have h4 : x ++ '/' :: n = (x ++ ['/']) ++ n := by simp
  exact List.append_cancel_right (h.trans h4)

/-- A path made of a non-empty directory path, a separator and a name lies in
that directory. -/
theorem parentDir_child (x n : Str) (hx : x ≠ []) (hn : '/' ∉ n) :
    parentDir (x ++ '/' :: n) = some x := by
  unfold parentDir
  rw [filepathSplit_child x n hn]
  have h1 : x ++ ['/'] ≠ [] := by simp
  have h2 : x ++ ['/'] ≠ ['/'] := by
    intro h
    have := congrArg List.length h
    simp at this
    exact hx this
  rw [if_neg h1, if_neg h2]
  simp

/-- A name directly below the root lies in the root. -/
theorem parentDir_top (n : Str) (hn : '/' ∉ n) : parentDir ('/' :: n) = some ['/'] := by
  unfold parentDir
  have h := filepathSplit_child [] n hn
  simp only [List.nil_append] at h
  rw [h]
  simp

/-! ## Requests on a host that accepts every request -/

theorem parentExists_of (fs : RemoteFS) (p d : Str) (hd : parentDir p = some d)
    (hfs : fs d = some Node.dir) : parentExists fs p = true := by
  simp [parentExists, hd, hfs]

theorem sftpStat_accepting (srv : Server) (p : Str) (w : World)
    (hfree : ∀ e, srv.refuses e = false) :
    sftpStat srv p w = ((w.fs p).isSome, w.log (.sftpStat p)) := by
  simp [sftpStat, hfree]

theorem sftpMkdir_accepting (srv : Server) (p : Str) (w : World)
    (hfree : ∀ e, srv.refuses e = false) (hp : w.fs p = none)
    (hpar : parentExists w.fs p = true) :
    sftpMkdir srv p w
      = (true, { w.log (.sftpMkdir p) with fs := setNode w.fs p (some Node.dir) }) := by
  simp [sftpMkdir, hfree, hp, hpar]

theorem sftpCreate_accepting (srv : Server) (p : Str) (w : World)
    (hfree : ∀ e, srv.refuses e = false) (hp : w.fs p = none)
    (hpar : parentExists w.fs p = true) :
    sftpCreate srv p w
      = (true, { w.log (.sftpCreate p) with
                  fs := setNode w.fs p (some (Node.file [] srv.createMode)) }) := by
  simp [sftpCreate, hfree, hp, hpar]

theorem sftpWrite_accepting (srv : Server) (p : Str) (buf c : Bytes) (m : Nat) (w : World)
    (hfree : ∀ e, srv.refuses e = false) (hp : w.fs p = some (Node.file c m)) :
    sftpWrite srv p buf w
      = (true, { w.log (.sftpWrite p buf) with
                  fs := setNode w.fs p (some (Node.file (buf ++ c.drop buf.length) m)) }) := by
  simp [sftpWrite, hfree, hp]

theorem sftpChmod_accepting (srv : Server) (p : Str) (c : Bytes) (m mode : Nat) (w : World)
    (hfree : ∀ e, srv.refuses e = false) (hp : w.fs p = some (Node.file c m)) :
    sftpChmod srv p mode w
      = (true, { w.log (.sftpChmod p mode) with
                  fs := setNode w.fs p (some (Node.file c mode)) }) := by
  simp [sftpChmod, hfree, hp]

/-- `Stat` then `Mkdir` of a path that does not exist yet, below an existing
directory. -/
theorem ensureDir_fresh (srv : Server) (p d : Str) (w : World)
    (hfree : ∀ e, srv.refuses e = false) (hp : w.fs p = none)
    (hd : parentDir p = some d) (hfs : w.fs d = some Node.dir) :
    ∃ w1, ensureDir srv p p w = .ok () w1
      ∧ (∀ q, w1.fs q = if q = p then some Node.dir else w.fs q)
      ∧ w1.trace = w.trace ++ [.sftpStat p, .sftpMkdir p] := by
  unfold ensureDir
  rw [sftpStat_accepting srv p w hfree]
  have hp1 : (w.log (.sftpStat p)).fs p = none := hp
  have hpar : parentExists (w.log (.sftpStat p)).fs p = true := parentExists_of w.fs p d hd hfs
  simp only [hp, Option.isSome_none]
  rw [sftpMkdir_accepting srv p _ hfree hp1 hpar]
  refine ⟨_, rfl, ?_, ?_⟩
  · intro q
    exact setNode_get _ _ _ _
  · simp [World.log]

/-- `Stat` of a path that exists already. -/
theorem ensureDir_present (srv : Server) (p : Str) (n : Node) (w : World)
    (hfree : ∀ e, srv.refuses e = false) (hp : w.fs p = some n) :
    ensureDir srv p p w = .ok () (w.log (.sftpStat p)) := by
  unfold ensureDir
  rw [sftpStat_accepting srv p w hfree]
  simp only [hp, Option.isSome_some]

/-- The first loop of `putdir` on the paths `base/n1`, `base/n1/n2`, ...: it
returns, each of the paths is a directory afterwards, and only these paths are
looked at. -/
theorem putdirChain_prefixDirs (srv : Server) (hfree : ∀ e, srv.refuses e = false) :
    ∀ (ns : List Str) (base : Str) (w : World),
    (∀ n ∈ ns, '/' ∉ n) →
    w.fs (if base = [] then ['/'] else base) = some Node.dir →
    (∀ d ∈ prefixDirs base ns, ∀ c m, w.fs d ≠ some (Node.file c m)) →
    ∃ w1, putdirChain srv (prefixDirs base ns) w = .ok () w1
      ∧ (∀ d ∈ prefixDirs base ns, w1.fs d = some Node.dir)
      ∧ (∀ q, w1.fs q = w.fs q ∨ (q ∈ prefixDirs base ns ∧ w1.fs q = some Node.dir))
      ∧ ∃ s, w1.trace = w.trace ++ s
          ∧ ∀ ev ∈ s, ∃ d ∈ prefixDirs base ns, ev.target = some d := by
  intro ns
  induction ns with
  | nil =>
    intro base w _ _ _
    exact ⟨w, rfl, by simp [prefixDirs], fun q => Or.inl rfl, [], by simp, by simp⟩
  | cons n ns ih =>
    intro base w hns hbase hway
    have hn : '/' ∉ n := hns n (by simp)
    have hpar : parentDir (base ++ '/' :: n) = some (if base = [] then ['/'] else base) := by
      by_cases hb : base = []
      · subst hb
        simp only [List.nil_append, if_true]
        exact parentDir_top n hn
      · rw [if_neg hb]
        exact parentDir_child base n hb hn
    have hstep : ∃ w1, ensureDir srv (base ++ '/' :: n) (base ++ '/' :: n) w = .ok () w1
        ∧ w1.fs (base ++ '/' :: n) = some Node.dir
        ∧ (∀ q, w1.fs q = w.fs q ∨ (q = base ++ '/' :: n ∧ w1.fs q = some Node.dir))
        ∧ ∃ s, w1.trace = w.trace ++ s ∧ ∀ ev ∈ s, ev.target = some (base ++ '/' :: n) := by
      cases hcur : w.fs (base ++ '/' :: n) with
      | none =>
        obtain ⟨w1, h1, f1, t1⟩ := ensureDir_fresh srv _ _ w hfree hcur hpar hbase
        refine ⟨w1, h1, by rw [f1, if_pos rfl], ?_, _, t1, ?_⟩
        · intro q
          by_cases hq : q = base ++ '/' :: n
          · right
            exact ⟨hq, by rw [f1, if_pos hq]⟩
          · left
            rw [f1, if_neg hq]
        · intro ev hev
          simp at hev
          rcases hev with h | h <;> subst h <;> rfl
      | some node =>
        have hdir : node = Node.dir := by
          cases node with
          | dir => rfl
          | file c m => exact absurd hcur (hway _ (by simp [prefixDirs]) c m)
        subst hdir
        refine ⟨_, ensureDir_present srv _ _ w hfree hcur, hcur, fun q => Or.inl rfl,
          [.sftpStat (base ++ '/' :: n)], rfl, ?_⟩
        intro ev hev
        simp at hev
        subst hev
        rfl
    obtain ⟨w1, h1, d1, f1, s1, t1, p1⟩ := hstep
    have hne : base ++ '/' :: n ≠ [] := by simp
    obtain ⟨w2, h2, d2, f2, s2, t2, p2⟩ := ih (base ++ '/' :: n) w1
      (fun x hx => hns x (List.mem_cons_of_mem _ hx))
      (by rw [if_neg hne]; exact d1)
      (by
        intro d hd c m hfile
        rcases f1 d with h | ⟨_, h⟩
        · exact hway d (by simp [prefixDirs, hd]) c m (h ▸ hfile)
        · rw [h] at hfile
          cases hfile)
    refine ⟨w2, by simp only [prefixDirs, putdirChain, h1, h2], ?_, ?_, s1 ++ s2, ?_, ?_⟩
    · intro d hd
      simp only [prefixDirs, List.mem_cons] at hd
      rcases hd with hd | hd
      · subst hd
        rcases f2 (base ++ '/' :: n) with h | ⟨_, h⟩
        · rw [h]
          exact d1
        · exact h
      · exact d2 d hd
    · intro q
      rcases f2 q with h | ⟨hm, h⟩
      · rcases f1 q with h' | ⟨hq, h'⟩
        · left
          rw [h, h']
        · right
          exact ⟨by simp [prefixDirs, hq], by rw [h, h']⟩
      · right
        exact ⟨by simp [prefixDirs, hm], h⟩
    · rw [t2, t1, List.append_assoc]
    · intro ev hev
      rcases List.mem_append.1 hev with h | h
      · exact ⟨_, by simp [prefixDirs], p1 ev h⟩
      · obtain ⟨d, hd, ht⟩ := p2 ev h
        exact ⟨d, by simp [prefixDirs, hd], ht⟩

/-! ## The directories of the first loop for an absolute remote root -/

theorem prefixDirs_eq (ns : List Str) (base : Str) :
    prefixDirs base ns
      = (List.range ns.length).map
          (fun k => base ++ '/' :: stringsJoin (ns.take (k + 1)) ['/']) := by
  induction ns generalizing base with
  | nil => rfl
  | cons n ns ih =>
    rw [prefixDirs, ih, List.length_cons, List.range_succ_eq_map, List.map_cons, List.map_map]
    congr 1
    apply List.map_congr_left
    intro k hk
    have hk' : k < ns.length := List.mem_range.1 hk
    have hne : ns.take (k + 1) ≠ [] := by
      intro h
      have hl : (ns.take (k + 1)).length = 0 := by rw [h]; rfl
      rw [List.length_take] at hl
      omega
    simp only [Function.comp, List.take_succ_cons]
    rw [stringsJoin_cons n _ _ hne]
    simp

theorem filepathJoin_nil_cons (xs : List Str) : filepathJoin ([] :: xs) = filepathJoin xs := by
  simp [filepathJoin, List.dropWhile]

/-- For an absolute remote root of plain names the first loop of `putdir`
looks at the root's ancestors in turn, ending with the root itself. -/
theorem chainDirs_abs (rs : List Str) (hr : rs ≠ []) (hs : ∀ r ∈ rs, plainName r = true) :
    chainDirs ('/' :: stringsJoin rs ['/']) = prefixDirs [] rs := by
  have hsplit : stringsSplit ('/' :: stringsJoin rs ['/']) "/".toList = [] :: rs := by
    have h0 : stringsSplit ('/' :: stringsJoin rs ['/']) "/".toList
        = splitGo ['/'] ('/' :: stringsJoin rs ['/']) 0 [] := rfl
    rw [h0, splitGo_cons, if_pos rfl,
      split_join rs hr (fun x hx => ((plainName_iff x).1 (hs x hx)).2.1)]
    rfl
  unfold chainDirs
  simp only [hsplit, List.length_cons, Nat.add_sub_cancel]
  rw [prefixDirs_eq]
  apply List.map_congr_left
  intro k hk
  have hk' : k < rs.length := List.mem_range.1 hk
  have hne : rs.take (k + 1) ≠ [] := by
    intro h
    have hl : (rs.take (k + 1)).length = 0 := by rw [h]; rfl
    rw [List.length_take] at hl
    omega
  simp only [List.take_succ_cons, List.nil_append]
  rw [filepathJoin_nil_cons, filepathJoin_plain _ hne
    (fun x hx => hs x (List.mem_of_mem_take hx))]

theorem mem_prefixDirs_last (rs : List Str) (hr : rs ≠ []) :
    '/' :: stringsJoin rs ['/'] ∈ prefixDirs [] rs := by
  rw [prefixDirs_eq]
  simp only [List.mem_map, List.mem_range, List.nil_append]
  refine ⟨rs.length - 1, ?_, ?_⟩
  · have : 0 < rs.length := List.length_pos.2 hr
    omega
  · have : rs.length - 1 + 1 = rs.length := by
      have : 0 < rs.length := List.length_pos.2 hr
      omega
    rw [this, List.take_length]

/-! ## The walk of `putdir` on a host that accepts every request -/

theorem put_accepting (srv : Server) (lfs : LocalFS) (src p d : Str) (w : World)
    (st : FileInfo) (buf : Bytes) (hfree : ∀ e, srv.refuses e = false)
    (hs : lfs.stat src = some st) (hr : lfs.readFile src = some buf) (hp : w.fs p = none)
    (hd : parentDir p = some d) (hfs : w.fs d = some Node.dir) :
    ∃ w1, put srv lfs src p w = .ok () w1
      ∧ (∀ q, w1.fs q = if q = p then some (Node.file buf st.mode) else w.fs q)
      ∧ w1.trace = w.trace ++ [.sftpCreate p, .sftpWrite p buf, .sftpChmod p st.mode] := by
  unfold put
  simp only [hs, hr]
  rw [sftpCreate_accepting srv p w hfree hp (parentExists_of w.fs p d hd hfs)]
  simp only
  rw [sftpWrite_accepting srv p buf [] srv.createMode _ hfree (by simp [setNode_get])]
  simp only
  rw [sftpChmod_accepting srv p (buf ++ List.drop buf.length []) srv.createMode st.mode _ hfree
    (by simp [setNode_get])]
  refine ⟨_, rfl, ?_, ?_⟩
  · intro q
    by_cases hq : q = p <;> simp [World.log, setNode_get, hq]
  · simp [World.log]

/-- One call of the walk function on a host that accepts every request, for an
entry whose remote path is free and lies in an existing directory. -/
theorem walkFn_accepting (srv : Server) (lfs : LocalFS) (cfg : Config) (e : WalkEntry)
    (k : FileKind) (w : World) (hfree : ∀ r, srv.refuses r = false) (hk : e.kind = some k)
    (hlocal : k = .regular → (lfs.stat e.path).isSome ∧ (lfs.readFile e.path).isSome)
    (hp : w.fs (cfg.testdir ++ "/".toList ++ e.path) = none)
    (hpar : k ≠ .other → ∃ d, parentDir (cfg.testdir ++ "/".toList ++ e.path) = some d
      ∧ w.fs d = some Node.dir) :
    ∃ w1, walkFn srv lfs cfg cfg.testdir e w = .ok true w1
      ∧ (∀ q, w1.fs q
          = if q = cfg.testdir ++ "/".toList ++ e.path then mirrorNode lfs e else w.fs q)
      ∧ w1.trace = w.trace ++ entryRequests lfs cfg.testdir e := by
  cases k with
  | dir =>
    obtain ⟨d, hd, hfs⟩ := hpar (by simp)
    obtain ⟨w1, h1, f1, t1⟩ :=
      ensureDir_fresh srv (cfg.testdir ++ "/".toList ++ e.path) d w hfree hp hd hfs
    refine ⟨w1, by simp only [walkFn, hk, h1], ?_, by rw [t1]; simp only [entryRequests, hk]⟩
    intro q
    rw [f1 q]
    simp only [mirrorNode, hk]
  | regular =>
    obtain ⟨d, hd, hfs⟩ := hpar (by simp)
    obtain ⟨hs, hr⟩ := hlocal rfl
    obtain ⟨st, hst⟩ := Option.isSome_iff_exists.1 hs
    obtain ⟨buf, hbuf⟩ := Option.isSome_iff_exists.1 hr
    obtain ⟨w1, h1, f1, t1⟩ := put_accepting srv lfs e.path
      (cfg.testdir ++ "/".toList ++ e.path) d w st buf hfree hst hbuf hp hd hfs
    refine ⟨w1, by simp only [walkFn, hk, h1], ?_,
      by rw [t1]; simp only [entryRequests, hk, hst, hbuf]⟩
    intro q
    rw [f1 q]
    simp only [mirrorNode, hk, hst, hbuf]
  | other =>
    refine ⟨w, by simp only [walkFn, hk], ?_, by simp only [entryRequests, hk, List.append_nil]⟩
    intro q
    by_cases hq : q = cfg.testdir ++ "/".toList ++ e.path
    · rw [if_pos hq, hq, hp]
      simp only [mirrorNode, hk]
    · rw [if_neg hq]

/-- The walk of `putdir` on a host that accepts every request: it returns,
each visited entry is mirrored at its remote path, the rest of the file table
is untouched, and the requests made are those of the visited entries, in
order. -/
theorem putdirWalk_accepting (srv : Server) (lfs : LocalFS) (cfg : Config)
    (hfree : ∀ r, srv.refuses r = false) : ∀ (es : List WalkEntry) (known : List Str)
    (w : World),
    ((visited es).map (fun e => e.path)).Nodup →
    (∀ e ∈ visited es, e.kind = some .regular →
      (lfs.stat e.path).isSome ∧ (lfs.readFile e.path).isSome) →
    (∀ e ∈ visited es, w.fs (cfg.testdir ++ "/".toList ++ e.path) = none) →
    (∀ d ∈ known, w.fs d = some Node.dir) →
    parentsFirst cfg.testdir known (visited es) →
    ∃ w1, putdirWalk srv lfs cfg cfg.testdir es w = .ok () w1
      ∧ (∀ e ∈ visited es, w1.fs (cfg.testdir ++ "/".toList ++ e.path) = mirrorNode lfs e)
      ∧ (∀ q, (∀ e ∈ visited es, q ≠ cfg.testdir ++ "/".toList ++ e.path) → w1.fs q = w.fs q)
      ∧ w1.trace = w.trace ++ ((visited es).map (entryRequests lfs cfg.testdir)).flatten := by
  intro es
  induction es with
  | nil =>
    intro known w _ _ _ _ _
    exact ⟨w, rfl, by simp [visited], fun q _ => rfl, by simp [visited]⟩
  | cons e es ih =>
    intro known w hnd hlocal hempty hknown hpf
    cases hk : e.kind with
    | none =>
      have hv : visited (e :: es) = [] := by simp [visited, List.takeWhile, hk]
      refine ⟨w, by simp only [putdirWalk, walkFn, hk], ?_, fun q _ => rfl, ?_⟩
      · rw [hv]
        simp
      · rw [hv]
        simp
    | some k =>
      have hv : visited (e :: es) = e :: visited es := by
        simp [visited, List.takeWhile, hk]
      rw [hv] at hnd hlocal hempty hpf ⊢
      simp only [List.map_cons, List.nodup_cons, List.mem_map, not_exists, not_and] at hnd
      obtain ⟨hpar, hrest⟩ := hpf
      obtain ⟨w1, h1, f1, t1⟩ := walkFn_accepting srv lfs cfg e k w hfree hk
        (fun hr => hlocal e (List.mem_cons_self _ _) (by rw [hk, hr]))
        (hempty e (List.mem_cons_self _ _))
        (by
          intro hko
          have hkind : e.kind = some .dir ∨ e.kind = some .regular := by
            cases k with
            | dir => exact Or.inl hk
            | regular => exact Or.inr hk
            | other => exact absurd rfl hko
          obtain ⟨d, hd, hpd⟩ := hpar hkind
          exact ⟨d, hpd, hknown d hd⟩)
      have hne : ∀ x ∈ visited es,
          cfg.testdir ++ "/".toList ++ x.path ≠ cfg.testdir ++ "/".toList ++ e.path := by
        intro x hx heq
        exact hnd.1 x hx (List.append_cancel_left heq)
      have hknown1 : ∀ d ∈ (if e.kind = some .dir
          then (cfg.testdir ++ "/".toList ++ e.path) :: known else known),
          w1.fs d = some Node.dir := by
        intro d hd
        have hold : ∀ d ∈ known, w1.fs d = some Node.dir := by
          intro d hd
          have hdp : d ≠ cfg.testdir ++ "/".toList ++ e.path := by
            intro h
            have h1 := hknown d hd
            rw [h, hempty e (List.mem_cons_self _ _)] at h1
            cases h1
          rw [f1, if_neg hdp]
          exact hknown d hd
        by_cases hdir : e.kind = some .dir
        · rw [if_pos hdir] at hd
          rcases List.mem_cons.1 hd with h | h
          · rw [h, f1, if_pos rfl]
            simp only [mirrorNode, hdir]
          · exact hold d h
        · rw [if_neg hdir] at hd
          exact hold d hd
      obtain ⟨w2, h2, m2, f2, t2⟩ := ih _ w1 hnd.2
        (fun x hx => hlocal x (List.mem_cons_of_mem _ hx))
        (fun x hx => by
          rw [f1, if_neg (hne x hx)]
          exact hempty x (List.mem_cons_of_mem _ hx))
        hknown1 hrest
      refine ⟨w2, by simp only [putdirWalk, h1, h2], ?_, ?_, ?_⟩
      · intro x hx
        rcases List.mem_cons.1 hx with hxe | hxv
        · subst hxe
          rw [f2 _ (fun y hy => (hne y hy).symm), f1, if_pos rfl]
        · exact m2 x hxv
      · intro q hq
        rw [f2 q (fun y hy => hq y (List.mem_cons_of_mem _ hy)), f1,
          if_neg (hq e (List.mem_cons_self _ _))]
      · rw [t2, t1]
        simp

/-! ## The walk of a well-formed tree -/

theorem parentsFirst_mono (root : Str) (es : List WalkEntry) :
    ∀ (known known1 : List Str), (∀ d ∈ known, d ∈ known1) →
      parentsFirst root known es → parentsFirst root known1 es := by
  induction es with
  | nil =>
    intro _ _ _ _
    trivial
  | cons e es ih =>
    intro known known1 hsub h
    obtain ⟨h1, h2⟩ := h
    refine ⟨fun hk => ?_, ?_⟩
    · obtain ⟨d, hd, hp⟩ := h1 hk
      exact ⟨d, hsub d hd, hp⟩
    · refine ih _ _ ?_ h2
      intro d hd
      by_cases hdir : e.kind = some .dir
      · rw [if_pos hdir] at hd ⊢
        rcases List.mem_cons.1 hd with h | h
        · rw [h]
          exact List.mem_cons_self _ _
        · exact List.mem_cons_of_mem _ (hsub d h)
      · rw [if_neg hdir] at hd ⊢
        exact hsub d hd

theorem parentsFirst_append (root : Str) (xs ys : List WalkEntry) :
    ∀ (known : List Str), parentsFirst root known xs →
      (∀ known1, (∀ d ∈ known, d ∈ known1) → parentsFirst root known1 ys) →
      parentsFirst root known (xs ++ ys) := by
  induction xs with
  | nil =>
    intro known _ h
    exact h known (fun _ hd => hd)
  | cons e xs ih =>
    intro known h hy
    obtain ⟨h1, h2⟩ := h
    refine ⟨h1, ih _ h2 ?_⟩
    intro known1 hsub
    apply hy
    intro d hd
    apply hsub
    by_cases hdir : e.kind = some .dir
    · rw [if_pos hdir]
      exact List.mem_cons_of_mem _ hd
    · rw [if_neg hdir]
      exact hd

theorem parentsFirst_takeWhile (root : Str) (p : WalkEntry → Bool) (es : List WalkEntry) :
    ∀ (known : List Str), parentsFirst root known es →
      parentsFirst root known (es.takeWhile p) := by
  induction es with
  | nil =>
    intro _ _
    trivial
  | cons e es ih =>
    intro known h
    obtain ⟨h1, h2⟩ := h
    rw [List.takeWhile_cons]
    split
    · exact ⟨h1, ih _ h2⟩
    · trivial

theorem takeWhile_sublist_filter (p : WalkEntry → Bool) (es : List WalkEntry) :
    List.Sublist (es.takeWhile p) (es.filter p) := by
  induction es with
  | nil => exact List.Sublist.slnil
  | cons e es ih =>
    rw [List.takeWhile_cons, List.filter_cons]
    split
    · exact ih.cons₂ e
    · exact List.nil_sublist _

/-- Two names of one directory with a common path below them are equal. -/
theorem below_name_unique (p n m x : Str) (hn : '/' ∉ n) (hm : '/' ∉ m)
    (hx : x = p ++ '/' :: n ∨ ∃ s, x = p ++ '/' :: n ++ '/' :: s)
    (hy : x = p ++ '/' :: m ∨ ∃ s, x = p ++ '/' :: m ++ '/' :: s) : n = m := by
  have key : ∀ (a : Str), '/' ∉ a → (x = p ++ '/' :: a ∨ ∃ s, x = p ++ '/' :: a ++ '/' :: s) →
      (x.drop (p.length + 1)).takeWhile (fun c => c != '/') = a := by
    intro a ha h
    rcases h with h | ⟨s, h⟩
    · have hd : x.drop (p.length + 1) = a := by
        rw [h]
        have : p ++ '/' :: a = (p ++ ['/']) ++ a := by simp
        rw [this, List.drop_left' (by simp)]
      rw [hd]
      exact takeWhile_whole a ha
    · have hd : x.drop (p.length + 1) = a ++ '/' :: s := by
        rw [h]
        have : p ++ '/' :: a ++ '/' :: s = (p ++ ['/']) ++ (a ++ '/' :: s) := by simp
        rw [this, List.drop_left' (by simp)]
      rw [hd]
      exact takeWhile_word a s ha
  rw [← key n hn hx, ← key m hm hy]

theorem names_plain : ∀ (g : Forest), g.wellFormed = true → ∀ y ∈ g.names, '/' ∉ y
  | .nil, _, y, hy => by simp [Forest.names] at hy
  | .cons a _ c, hg, y, hy => by
    simp only [Forest.wellFormed, Bool.and_eq_true, decide_eq_true_eq] at hg
    simp only [Forest.names, List.mem_cons] at hy
    rcases hy with h | h
    · rw [h]
      exact ((plainName_iff a).1 hg.1.1.1).2.1
    · exact names_plain c hg.2 y h

mutual
/-- The walk of a well-formed tree at a path of plain names: every path of
the walk is the path of the tree or lies below it, no path is visited twice
before an error, and every entry comes after the directory it lies in. -/
theorem walk_facts (root : Str) : ∀ (t : Tree) (comps : List Str), comps ≠ [] →
    (∀ x ∈ comps, plainName x = true) → t.wellFormed = true →
    (∀ e ∈ walk (stringsJoin comps ['/']) t,
        e.path = stringsJoin comps ['/'] ∨ ∃ s, e.path = stringsJoin comps ['/'] ++ '/' :: s)
      ∧ (((walk (stringsJoin comps ['/']) t).filter (fun e => e.kind.isSome)).map
          (fun e => e.path)).Nodup
      ∧ ∀ known, (∃ d ∈ known,
            parentDir (root ++ "/".toList ++ stringsJoin comps ['/']) = some d) →
          parentsFirst root known (walk (stringsJoin comps ['/']) t)
  | .file, comps, _, _, _ => by
    refine ⟨?_, by simp [walk], ?_⟩
    · intro e he
      simp [walk] at he
      left
      rw [he]
    · intro known hk
      exact ⟨fun _ => hk, trivial⟩
  | .other, comps, _, _, _ => by
    refine ⟨?_, by simp [walk], ?_⟩
    · intro e he
      simp [walk] at he
      left
      rw [he]
    · intro known _
      exact ⟨fun h => by simp at h, trivial⟩
  | .broken, comps, _, _, _ => by
    refine ⟨?_, by simp [walk], ?_⟩
    · intro e he
      simp [walk] at he
      left
      rw [he]
    · intro known _
      exact ⟨fun h => by simp at h, trivial⟩
  | .dir false kids, comps, _, _, _ => by
    refine ⟨?_, by simp [walk], ?_⟩
    · intro e he
      simp [walk] at he
      left
      rcases he with h | h <;> rw [h]
    · intro known hk
      exact ⟨fun _ => hk, fun h => by simp at h, trivial⟩
  | .dir true kids, comps, hc, hp, hwf => by
    have hk : kids.wellFormed = true := by simpa [Tree.wellFormed] using hwf
    obtain ⟨ha, hb, hcc⟩ := walkKids_facts root kids comps hc hp hk
    refine ⟨?_, ?_, ?_⟩
    · intro e he
      simp only [walk, List.mem_cons] at he
      rcases he with h | h
      · left
        rw [h]
      · obtain ⟨n, _, hn⟩ := ha e h
        right
        rcases hn with hn | ⟨s, hn⟩
        · exact ⟨n, hn⟩
        · exact ⟨n ++ '/' :: s, by rw [hn]; simp⟩
    · simp only [walk, List.filter_cons, Option.isSome_some, if_true, List.map_cons,
        List.nodup_cons]
      refine ⟨?_, hb⟩
      intro hmem
      simp only [List.mem_map, List.mem_filter] at hmem
      obtain ⟨e, ⟨he, _⟩, hpath⟩ := hmem
      obtain ⟨n, _, hn⟩ := ha e he
      rw [hpath] at hn
      rcases hn with hn | ⟨s, hn⟩
      · have := congrArg List.length hn
        simp at this
      · have := congrArg List.length hn
        simp at this
    · intro known hkn
      refine ⟨fun _ => hkn, ?_⟩
      simp only [if_true]
      exact hcc _ (List.mem_cons_self _ _)
/-- The walk of the entries of a directory of a well-formed tree. -/
theorem walkKids_facts (root : Str) : ∀ (f : Forest) (comps : List Str), comps ≠ [] →
    (∀ x ∈ comps, plainName x = true) → f.wellFormed = true →
    (∀ e ∈ walkKids (stringsJoin comps ['/']) f, ∃ n ∈ f.names,
        e.path = stringsJoin comps ['/'] ++ '/' :: n
          ∨ ∃ s, e.path = stringsJoin comps ['/'] ++ '/' :: n ++ '/' :: s)
      ∧ (((walkKids (stringsJoin comps ['/']) f).filter (fun e => e.kind.isSome)).map
          (fun e => e.path)).Nodup
      ∧ ∀ known, root ++ "/".toList ++ stringsJoin comps ['/'] ∈ known →
          parentsFirst root known (walkKids (stringsJoin comps ['/']) f)
  | .nil, comps, _, _, _ => by
    refine ⟨by simp [walkKids], by simp [walkKids], ?_⟩
    intro known _
    trivial
  | .cons name t rest, comps, hc, hp, hwf => by
    simp only [Forest.wellFormed, Bool.and_eq_true, decide_eq_true_eq] at hwf
    obtain ⟨⟨⟨hname, hfresh⟩, ht⟩, hrest⟩ := hwf
    have hplain : ∀ x ∈ comps ++ [name], plainName x = true := by
      intro x hx
      rcases List.mem_append.1 hx with h | h
      · exact hp x h
      · simp at h
        rw [h]
        exact hname
    have hslash : '/' ∉ name := ((plainName_iff name).1 hname).2.1
    have hjoin : filepathJoin [stringsJoin comps ['/'], name]
        = stringsJoin (comps ++ [name]) ['/'] := filepathJoin_child comps name hc hp hname
    have hsnoc : stringsJoin (comps ++ [name]) ['/'] = stringsJoin comps ['/'] ++ '/' :: name := by
      rw [stringsJoin_snoc comps name _ hc]
      simp
    obtain ⟨ta, tb, tc⟩ := walk_facts root t (comps ++ [name]) (by simp) hplain ht
    obtain ⟨ra, rb, rc⟩ := walkKids_facts root rest comps hc hp hrest
    rw [hsnoc] at ta tb tc
    have hwalk : walkKids (stringsJoin comps ['/']) (.cons name t rest)
        = walk (stringsJoin comps ['/'] ++ '/' :: name) t
          ++ walkKids (stringsJoin comps ['/']) rest := by
      simp only [walkKids, hjoin, hsnoc]
    rw [hwalk]
    refine ⟨?_, ?_, ?_⟩
    · intro e he
      rcases List.mem_append.1 he with h | h
      · exact ⟨name, by simp [Forest.names], ta e h⟩
      · obtain ⟨n, hn, hpn⟩ := ra e h
        exact ⟨n, by simp [Forest.names, hn], hpn⟩
    · rw [List.filter_append, List.map_append]
      refine List.Nodup.append tb rb ?_
      intro x hx hy
      simp only [List.mem_map, List.mem_filter] at hx hy
      obtain ⟨e1, ⟨he1, _⟩, hp1⟩ := hx
      obtain ⟨e2, ⟨he2, _⟩, hp2⟩ := hy
      obtain ⟨m, hm, hpm⟩ := ra e2 he2
      have h1 := ta e1 he1
      rw [hp1] at h1
      rw [hp2] at hpm
      have hmplain : '/' ∉ m := names_plain rest hrest m hm
      have heq := below_name_unique (stringsJoin comps ['/']) name m x hslash hmplain h1 hpm
      exact hfresh (heq ▸ hm)
    · intro known hkn
      apply parentsFirst_append
      · apply tc
        refine ⟨_, hkn, ?_⟩
        have hx : root ++ "/".toList ++ (stringsJoin comps ['/'] ++ '/' :: name)
            = (root ++ "/".toList ++ stringsJoin comps ['/']) ++ '/' :: name := by simp
        rw [hx]
        exact parentDir_child _ name (by simp) hslash
      · intro known1 hsub
        exact rc known1 (hsub _ hkn)
end

/-! ## The command line (C3) -/

/-- C3: for every test directory, program path, argument list and memory
reservation, `run` passes to the session the string
`mkdir -p T && cd T && ` followed by the wrapper, the program path, one space
and the arguments joined by single spaces; the wrapper is empty when the
reservation is 0 and `/usr/lib/vmware/rp/bin/runInRP --max <m> ` otherwise. -/
theorem run_command_string (srv : Server) (cfg : Config) (prog : Str) (args : List Str)
    (w : World) (hs : srv.sessionOk = true) :
    (run srv cfg prog args w).world.trace =
      w.trace ++ [Event.newSession,
        Event.sessionRun
          ("mkdir -p ".toList ++ cfg.testdir ++ " && cd ".toList ++ cfg.testdir
            ++ " && ".toList
            ++ (if cfg.mem = 0 then []
                else "/usr/lib/vmware/rp/bin/runInRP --max ".toList ++ fmtInt cfg.mem
                  ++ " ".toList)
            ++ prog ++ " ".toList ++ " ".toList.intercalate args),
        Event.sessionClose] := by
  simp [run, hs, Outcome.world, World.log, runCommand_eq]

theorem run_command_string_witness :
    (run demoServer { demoConfig with mem := 512 } "/tmp/pkg_sub_t.test".toList
        ["-test.v".toList, "-test.run=A B".toList] demoWorld).world.trace =
      [Event.newSession,
        Event.sessionRun ("mkdir -p /tmp/src/pkg/sub && cd /tmp/src/pkg/sub && "
          ++ "/usr/lib/vmware/rp/bin/runInRP --max 512 /tmp/pkg_sub_t.test "
          ++ "-test.v -test.run=A B").toList,
        Event.sessionClose] :=
  run_command_string demoServer { demoConfig with mem := 512 } "/tmp/pkg_sub_t.test".toList
    ["-test.v".toList, "-test.run=A B".toList] demoWorld rfl

/-! ## The remote name (C5, C6) -/

theorem getConfig_ok (sys : Sys) (w w1 : World) (cfg : Config)
    (h : getConfig sys w = .ok cfg w1) :
    ∃ sub flag bin, subdir sys.cwd sys.goroot sys.gopath = some (sub, flag)
      ∧ sys.args.get? 1 = some bin
      ∧ cfg.remote = remoteName sub bin
      ∧ cfg.testdir = filepathJoin [sys.rootdir, sub]
      ∧ cfg.rootdir = sys.rootdir ∧ cfg.keep = sys.keep ∧ cfg.mem = sys.mem
      ∧ cfg.esx = sys.esx ∧ w1 = w := by
  unfold getConfig at h
  cases hsub : subdir sys.cwd sys.goroot sys.gopath with
  | none => simp [hsub] at h
  | some r =>
    obtain ⟨sub, flag⟩ := r
    rcases hargs : sys.args with _ | ⟨a0, _ | ⟨bin, rest⟩⟩
    · simp [hsub, hargs] at h
    · simp [hsub, hargs] at h
    · simp only [hsub, hargs, Outcome.ok.injEq] at h
      obtain ⟨hc, hw⟩ := h
      subst hc
      exact ⟨sub, flag, bin, rfl, by simp, rfl, rfl, rfl, rfl, rfl, rfl, hw.symm⟩

/-- C5: the remote name computed by `getConfig` contains no `/`, and two runs
of `getConfig` that derive the same subdirectory and are given the same binary
argument compute the same name. -/
theorem remote_name_single_segment (sys sys1 : Sys) (w w1 v v1 : World) (cfg cfg1 : Config)
    (h : getConfig sys w = .ok cfg v) (h1 : getConfig sys1 w1 = .ok cfg1 v1)
    (hsub : (subdir sys.cwd sys.goroot sys.gopath).map Prod.fst
      = (subdir sys1.cwd sys1.goroot sys1.gopath).map Prod.fst)
    (hbin : sys.args.get? 1 = sys1.args.get? 1) :
    '/' ∉ cfg.remote ∧ cfg.remote = cfg1.remote := by
  obtain ⟨sub, flag, bin, e1, e2, e3, -⟩ := getConfig_ok sys w v cfg h
  obtain ⟨sub1, flag1, bin1, f1, f2, f3, -⟩ := getConfig_ok sys1 w1 v1 cfg1 h1
  rw [e1, f1] at hsub
  rw [e2, f2] at hbin
  simp only [Option.map_some', Option.some.injEq] at hsub hbin
  subst hsub hbin
  refine ⟨?_, by rw [e3, f3]⟩
  rw [e3, remoteName_eq_spec]
  exact flattenSeparators_no_slash _

theorem remote_name_single_segment_witness :
    '/' ∉ demoConfig.remote ∧ demoConfig.remote = demoConfig.remote :=
  remote_name_single_segment demoSys demoSys demoWorld demoWorld demoWorld demoWorld
    demoConfig demoConfig getConfig_demo getConfig_demo rfl rfl

/-- C6: the remote name of `getConfig` is the last component of the binary
argument, path-joined onto the subdirectory without one leading `src/`, every
`/` replaced by `_`; the subdirectory `src/pkg/sub` and the argument `./t.test`
give `pkg_sub_t.test`; and `main` uploads the binary to the join of the root
directory and that name, `/tmp/pkg_sub_t.test` in the example. -/
theorem remote_name_derivation (srv : Server) (sys : Sys) (w w1 : World) (cfg : Config)
    (h : getConfig sys w = .ok cfg w1) :
    (∃ sub flag bin, subdir sys.cwd sys.goroot sys.gopath = some (sub, flag)
        ∧ sys.args.get? 1 = some bin
        ∧ cfg.remote = specRemoteName sub bin
        ∧ ∀ v st buf, sys.lfs.stat bin = some st → sys.lfs.readFile bin = some buf →
            v.trace ++ [Event.sftpCreate (filepathJoin [sys.rootdir, specRemoteName sub bin])]
              <+: (deployAndRun srv sys cfg v).world.trace)
      ∧ specRemoteName "src/pkg/sub".toList "./t.test".toList = "pkg_sub_t.test".toList
      ∧ filepathJoin ["/tmp".toList, "pkg_sub_t.test".toList] = "/tmp/pkg_sub_t.test".toList := by
  obtain ⟨sub, flag, bin, e1, e2, e3, -, e5, -⟩ := getConfig_ok sys w w1 cfg h
  refine ⟨⟨sub, flag, bin, e1, e2, by rw [e3, remoteName_eq_spec], ?_⟩, by decide, by decide⟩
  intro v st buf hst hrd
  have hbin : sys.args.getD 1 [] = bin := by
    rw [List.get?_eq_getElem?] at e2
    simp [List.getD, e2]
  have hp := put_starts srv sys.lfs bin (filepathJoin [cfg.rootdir, cfg.remote]) v st buf hst hrd
  rw [e5, e3, remoteName_eq_spec] at hp
  have hd := deployAndRun_grows srv sys cfg v
  have hstart : Grows (v.log (.sftpCreate (filepathJoin [sys.rootdir, specRemoteName sub bin])))
      (deployAndRun srv sys cfg v).world := by
    unfold deployAndRun
    simp only [hbin, e5, e3, remoteName_eq_spec]
    split <;> rename_i he <;> rw [he] at hp
    · exact hp
    · exact hp
    · rename_i w2
      have hdir := putdir_grows srv sys.lfs cfg "testdata".toList cfg.testdir w2
      split <;> rename_i hd2 <;> rw [hd2] at hdir
      · exact hp.trans hdir
      · exact hp.trans hdir
      · exact (hp.trans hdir).trans (run_grows srv cfg _ _ _)
  exact hstart.is_prefix

theorem remote_name_derivation_witness :
    demoConfig.remote = specRemoteName "src/pkg/sub".toList "./t.test".toList
      ∧ Event.sftpCreate "/tmp/pkg_sub_t.test".toList
          ∈ (deployAndRun demoServer demoSys demoConfig demoWorld).world.trace := by
  obtain ⟨⟨sub, flag, bin, e1, e2, e3, e4⟩, -, -⟩ :=
    remote_name_derivation demoServer demoSys demoWorld demoWorld demoConfig getConfig_demo
  refine ⟨by decide, ?_⟩
  have hb : bin = "./t.test".toList := by
    have : demoSys.args.get? 1 = some "./t.test".toList := rfl
    rw [this] at e2
    exact (Option.some.inj e2).symm
  subst hb
  have hpre := e4 demoWorld ⟨.regular, 493⟩ [127, 69, 76, 70] rfl rfl
  rw [← e3] at hpre
  exact hpre.subset (by decide)

/-! ## The end of `main` (C1, C2, C10) -/

/-- When `run` returns, `main` ends as `finish` does, followed by the deferred
close of its client unless the process exits. -/
theorem main_after_run (srv : Server) (sys : Sys) (w w2 : World) (cfg : Config) (err : Bool)
    (hcfg : getConfig sys w = .ok cfg w)
    (hdial : srv.dialOk (sprintf "%s:22".toList [.str cfg.esx]) = true)
    (hsftp : srv.sftpOk w.clients = true)
    (hrun : deployAndRun srv sys cfg (connected cfg w) = .ok err w2) :
    main srv sys w = (withDeferredClose w.clients (finish srv cfg err w2)).final := by
  unfold main
  simp only [hcfg, hdial, if_true]
  have hs : srv.sftpOk (w.log (.dial (sprintf "%s:22".toList [.str cfg.esx]))).clients = true :=
    hsftp
  rw [if_pos hs]
  have hb : mainBody srv sys cfg (connected cfg w) = finish srv cfg err w2 := by
    unfold mainBody
    rw [hrun]
  exact congrArg (fun o => (withDeferredClose w.clients o).final) hb

theorem deployAndRun_demo :
    deployAndRun demoServer demoSys demoConfig (connected demoConfig demoWorld)
      = .ok false (deployAndRun demoServer demoSys demoConfig
          (connected demoConfig demoWorld)).world := by
  rfl

/-- C1: once the upload is done and `run` has returned, `main` calls `remove`
on the join of the root directory and the remote name exactly when the keep
flag is false and `run` returned no error, and the file is then gone when the
cleanup client opens and the host accepts the removal; in every other case the
file table stays as `run` left it and the trace holds no removal request
beyond those made before `main` started. -/
theorem remove_iff_not_keep_and_success (srv : Server) (sys : Sys) (w w2 : World)
    (cfg : Config) (err : Bool)
    (hcfg : getConfig sys w = .ok cfg w)
    (hdial : srv.dialOk (sprintf "%s:22".toList [.str cfg.esx]) = true)
    (hsftp : srv.sftpOk w.clients = true)
    (hrun : deployAndRun srv sys cfg (connected cfg w) = .ok err w2) :
    (cfg.keep = false ∧ err = false →
        main srv sys w
            = (withDeferredClose w.clients
                (remove srv (filepathJoin [cfg.rootdir, cfg.remote]) w2)).final
          ∧ (srv.sftpOk w2.clients = true →
              srv.refuses (.sftpRemove (filepathJoin [cfg.rootdir, cfg.remote])) = false →
              (∃ c m, w2.fs (filepathJoin [cfg.rootdir, cfg.remote]) = some (Node.file c m)) →
              Event.sftpRemove (filepathJoin [cfg.rootdir, cfg.remote])
                  ∈ (main srv sys w).world.trace
                ∧ (main srv sys w).world.fs (filepathJoin [cfg.rootdir, cfg.remote]) = none))
      ∧ (¬ (cfg.keep = false ∧ err = false) →
        (main srv sys w).world.fs = w2.fs
          ∧ ∀ e ∈ (main srv sys w).world.trace, e.isRemove = true → e ∈ w.trace) := by
  rw [main_after_run srv sys w w2 cfg err hcfg hdial hsftp hrun]
  have hg : Grows w w2 := by
    have h1 : Grows w (connected cfg w) :=
      ⟨[.dial (sprintf "%s:22".toList [.str cfg.esx]), .sftpNewClient w.clients],
        by simp [connected, World.log], by
          intro e he
          simp at he
          rcases he with h | h <;> subst h <;> rfl⟩
    have h2 := deployAndRun_grows srv sys cfg (connected cfg w)
    rw [hrun] at h2
    exact h1.trans h2
  obtain ⟨s, hs, hns⟩ := hg
  have hmem : ∀ e ∈ w2.trace, e.isRemove = true → e ∈ w.trace := by
    intro e he hr
    rw [hs] at he
    rcases List.mem_append.1 he with h | h
    · exact h
    · rw [hns e h] at hr
      cases hr
  constructor
  · rintro ⟨hk, he⟩
    subst he
    have hfin : finish srv cfg false w2
        = remove srv (filepathJoin [cfg.rootdir, cfg.remote]) w2 := by
      unfold finish
      simp only [hk]
      cases remove srv (filepathJoin [cfg.rootdir, cfg.remote]) w2 <;> rfl
    rw [hfin]
    refine ⟨rfl, ?_⟩
    rintro hopen haccept ⟨c, m, hfile⟩
    simp [remove, hopen, sftpRemove, haccept, hfile, World.log, withDeferredClose,
      Outcome.final, setNode_get]
  · intro hne
    unfold finish
    cases hk : cfg.keep <;> cases err
    · exact absurd ⟨hk, rfl⟩ hne
    · exact ⟨rfl, hmem⟩
    · refine ⟨rfl, ?_⟩
      intro e he hr
      simp only [Bool.not_true, Bool.false_and, withDeferredClose, Outcome.final, World.log] at he
      rcases List.mem_append.1 he with h | h
      · exact hmem e h hr
      · simp at h
        subst h
        cases hr
    · exact ⟨rfl, hmem⟩

theorem remove_iff_not_keep_and_success_witness :
    main demoServer demoSys demoWorld
      = (withDeferredClose 0
          (remove demoServer "/tmp/pkg_sub_t.test".toList
            (deployAndRun demoServer demoSys demoConfig
              (connected demoConfig demoWorld)).world)).final :=
  ((remove_iff_not_keep_and_success demoServer demoSys demoWorld _ demoConfig false
    getConfig_demo rfl rfl deployAndRun_demo).1 ⟨rfl, rfl⟩).1

/-- C2, as the claim states it, fails: on a host where the second
file-transfer client cannot be opened, `run` returns no error and the process
still ends with status 1. -/
theorem exit_status_not_only_run_result :
    (deployAndRun oneClientServer demoSys demoConfig
        (connected demoConfig demoWorld)).result = some false
      ∧ (main oneClientServer demoSys demoWorld).status = 1 := by
  decide

/-- C2, amended: when `run` returns, the exit status is 1 if `run` returned an
error; if it returned none the status is 0 when the keep flag is set or the
file-transfer client of the cleanup opens, whatever the answer to the removal
request, and 1 when that client cannot be opened. -/
theorem exit_status_after_run (srv : Server) (sys : Sys) (w w2 : World)
    (cfg : Config) (err : Bool)
    (hcfg : getConfig sys w = .ok cfg w)
    (hdial : srv.dialOk (sprintf "%s:22".toList [.str cfg.esx]) = true)
    (hsftp : srv.sftpOk w.clients = true)
    (hrun : deployAndRun srv sys cfg (connected cfg w) = .ok err w2) :
    (main srv sys w).status
      = if err then 1 else if cfg.keep then 0 else if srv.sftpOk w2.clients then 0 else 1 := by
  rw [main_after_run srv sys w w2 cfg err hcfg hdial hsftp hrun]
  cases err <;> cases hk : cfg.keep <;> cases hs : srv.sftpOk w2.clients <;>
    simp [finish, remove, hk, hs, withDeferredClose, Outcome.final]

theorem exit_status_after_run_witness :
    (main demoServer demoSys demoWorld).status = 0 :=
  exit_status_after_run demoServer demoSys demoWorld _ demoConfig false
    getConfig_demo rfl rfl deployAndRun_demo

/-- C10 at two failing inputs: when the remote command fails, `main` ends
through `os.Exit(1)`, and when the host rejects the creation of the remote
file, `put` ends the process through `log.Fatal`; in both runs the
file-transfer client of `main` was opened and is never closed. -/
theorem client_left_open_on_exit :
    ((main failingRunServer demoSys demoWorld).status = 1
        ∧ Event.sftpNewClient 0 ∈ (main failingRunServer demoSys demoWorld).world.trace
        ∧ Event.sftpClose 0 ∉ (main failingRunServer demoSys demoWorld).world.trace)
      ∧ (main noCreateServer demoSys demoWorld).status = 1
      ∧ Event.sftpNewClient 0 ∈ (main noCreateServer demoSys demoWorld).world.trace
      ∧ Event.sftpClose 0 ∉ (main noCreateServer demoSys demoWorld).world.trace := by
  decide

/-! ## The working directory (C7) -/

/-- C7 at a failing input: `/usr/local/gopher` is not below GOROOT
`/usr/local/go` and GOPATH is empty, yet `subdir` returns `../gopher` and
`main` goes on to dial. -/
theorem subdir_accepts_sibling_of_goroot :
    subdir (some "/usr/local/gopher".toList) "/usr/local/go".toList []
        = some ("../gopher".toList, true)
      ∧ Event.dial "esx1:22".toList ∈ (main demoServer besideGorootSys demoWorld).world.trace := by
  decide

/-! ## Uploading one file (C8) -/

/-- C8 at a failing input: on a host that rejects the mode change `put`
returns normally; the remote file has the local bytes but the mode it was
created with (420), not the local mode (493). -/
theorem put_ignores_chmod_failure :
    (put noChmodServer demoLocal "./t.test".toList "/tmp/pkg_sub_t.test".toList
        demoWorld).result = some ()
      ∧ demoLocal.stat "./t.test".toList = some ⟨.regular, 493⟩
      ∧ (put noChmodServer demoLocal "./t.test".toList "/tmp/pkg_sub_t.test".toList
          demoWorld).world.fs "/tmp/pkg_sub_t.test".toList
        = some (Node.file [127, 69, 76, 70] 420) := by
  decide

/-! ## The remote test directory (C4) -/

/-- C4, as the claim states it, fails: in the example the test directory is
not `/tmp/pkg/sub`, and the command does not begin with
`mkdir -p /tmp/pkg/sub && cd /tmp/pkg/sub && /tmp/pkg_sub_t.test`.  With the
GOPATH list `/home/u:/home/u/go` the first entry is taken as the base and the
test directory is `/tmp/go/src/pkg/sub`; with GOROOT `/home/u/g`, a string
prefix of the working directory, it is `/go/src/pkg/sub`. -/
theorem testdir_is_not_stripped :
    (∃ cfg, getConfig demoSys demoWorld = .ok cfg demoWorld
      ∧ cfg.testdir ≠ "/tmp/pkg/sub".toList
      ∧ ¬ ("mkdir -p /tmp/pkg/sub && cd /tmp/pkg/sub && /tmp/pkg_sub_t.test".toList
            <+: runCommand cfg (filepathJoin [cfg.rootdir, cfg.remote]) (demoSys.args.drop 2)))
      ∧ (getConfig earlierEntrySys demoWorld).result.map (fun c => c.testdir)
          = some "/tmp/go/src/pkg/sub".toList
      ∧ (getConfig prefixGorootSys demoWorld).result.map (fun c => c.testdir)
          = some "/go/src/pkg/sub".toList :=
  ⟨⟨demoConfig, getConfig_demo, by decide, by decide⟩, by decide, by decide⟩

/-- C4, amended: let the working directory be `g/src/p` where `g`, an absolute
path in clean form that does not end in a separator, is the first entry of the
GOPATH list that is a string prefix of the working directory, and let GOROOT
not be a string prefix of the working directory; let the working directory
and `R/src/p` be in clean form for the non-empty root directory `R`.  Then the
derived subdirectory is `src/p` and the test directory is `R/src/p`; the
remote name is derived from `src/p`; with no memory reservation the command
begins `mkdir -p R/src/p && cd R/src/p && ` followed by the remote path of the
binary.  In the example scenario (`p` is `pkg/sub`, `R` is `/tmp`, binary
argument `./t.test`, no further argument, no memory reservation) the command
is `mkdir -p /tmp/src/pkg/sub && cd /tmp/src/pkg/sub && /tmp/pkg_sub_t.test `;
for GOPATH `/home/u/go` the subdirectory is `src/pkg/sub` and the test
directory `/tmp/src/pkg/sub`. -/
theorem testdir_keeps_src (sys : Sys) (w : World) (g p : Str) (pre post : List Str)
    (a0 bin : Str) (rest : List Str)
    (hcwd : sys.cwd = some (g ++ "/src/".toList ++ p))
    (hargs : sys.args = a0 :: bin :: rest)
    (hroot : hasPrefix (g ++ "/src/".toList ++ p) sys.goroot = false)
    (hlist : filepathSplitList sys.gopath = pre ++ g :: post)
    (hpre : ∀ q ∈ pre, hasPrefix (g ++ "/src/".toList ++ p) q = false)
    (habs : hasPrefix g "/".toList = true)
    (hlast : g.getLast? ≠ some '/')
    (hg : filepathClean g = g)
    (hc : filepathClean (g ++ "/src/".toList ++ p) = g ++ "/src/".toList ++ p)
    (hR : sys.rootdir ≠ [])
    (ht : filepathClean (sys.rootdir ++ "/src/".toList ++ p)
      = sys.rootdir ++ "/src/".toList ++ p) :
    (subdir sys.cwd sys.goroot sys.gopath = some ("src/".toList ++ p, false)
      ∧ ∃ cfg, getConfig sys w = .ok cfg w
        ∧ cfg.testdir = sys.rootdir ++ "/src/".toList ++ p
        ∧ cfg.remote = remoteName ("src/".toList ++ p) bin
        ∧ (p = "pkg/sub".toList → sys.rootdir = "/tmp".toList → bin = "./t.test".toList →
            rest = [] → sys.mem = 0 →
            runCommand cfg (filepathJoin [cfg.rootdir, cfg.remote]) (sys.args.drop 2)
              = ("mkdir -p /tmp/src/pkg/sub && cd /tmp/src/pkg/sub && "
                  ++ "/tmp/pkg_sub_t.test ").toList)
        ∧ (cfg.mem = 0 → ∀ args,
            "mkdir -p ".toList ++ (sys.rootdir ++ "/src/".toList ++ p) ++ " && cd ".toList
              ++ (sys.rootdir ++ "/src/".toList ++ p) ++ " && ".toList
              ++ filepathJoin [cfg.rootdir, cfg.remote]
            <+: runCommand cfg (filepathJoin [cfg.rootdir, cfg.remote]) args))
      ∧ subdir demoSys.cwd demoSys.goroot demoSys.gopath = some ("src/pkg/sub".toList, false)
      ∧ demoConfig.testdir = "/tmp/src/pkg/sub".toList
      ∧ "mkdir -p /tmp/src/pkg/sub && cd /tmp/src/pkg/sub && /tmp/pkg_sub_t.test".toList
          <+: runCommand demoConfig (filepathJoin [demoConfig.rootdir, demoConfig.remote])
                (demoSys.args.drop 2) := by
  have hshape : g ++ "/src/".toList ++ p = g ++ '/' :: ("src/".toList ++ p) := by
    simp
  have hrel : filepathRel g (g ++ "/src/".toList ++ p) = some ("src/".toList ++ p) := by
    rw [hshape] at hc ⊢
    exact filepathRel_below g _ habs hlast hg hc
  have hpg : hasPrefix (g ++ "/src/".toList ++ p) g = true := by
    rw [List.append_assoc]
    exact hasPrefix_append g _
  have hsub : subdir sys.cwd sys.goroot sys.gopath = some ("src/".toList ++ p, false) := by
    unfold subdir
    simp only [hcwd, hroot, hlist]
    exact subdirGopath_found _ g _ pre post hpre hpg hrel
  have hjoin : filepathJoin [sys.rootdir, "src/".toList ++ p]
      = sys.rootdir ++ "/src/".toList ++ p := by
    obtain ⟨c, r1, hr1⟩ := List.exists_cons_of_ne_nil hR
    have hj : stringsJoin [sys.rootdir, "src/".toList ++ p] ['/']
        = sys.rootdir ++ "/src/".toList ++ p := by
      simp [stringsJoin]
    unfold filepathJoin
    rw [hr1] at hj ⊢
    simp only [List.dropWhile, List.isEmpty]
    rw [hj, ← hr1]
    exact ht
  refine ⟨⟨hsub, ?_⟩, by decide, by decide, by decide⟩
  refine ⟨{ esx := sys.esx, rootdir := sys.rootdir,
             testdir := filepathJoin [sys.rootdir, "src/".toList ++ p],
             remote := remoteName ("src/".toList ++ p) bin,
             keep := sys.keep, mem := sys.mem },
    by simp only [getConfig, hsub, hargs], hjoin, rfl, ?_, ?_⟩
  · intro hp hr hb hrest hmem
    rw [runCommand_eq]
    simp only [hjoin, hargs, hr, hp, hb, hrest, hmem, List.drop, if_true]
    decide
  intro hm args
  have hm0 : sys.mem = 0 := hm
  rw [runCommand_eq]
  refine ⟨" ".toList ++ " ".toList.intercalate args, ?_⟩
  simp only [hjoin, hm0, if_true, List.nil_append, List.append_assoc]

theorem testdir_keeps_src_witness :
    subdir demoSys.cwd demoSys.goroot demoSys.gopath = some ("src/".toList ++ "pkg/sub".toList, false)
      ∧ ∃ cfg, getConfig demoSys demoWorld = .ok cfg demoWorld
        ∧ cfg.testdir = "/tmp".toList ++ "/src/".toList ++ "pkg/sub".toList :=
  have h := (testdir_keeps_src demoSys demoWorld "/home/u/go".toList "pkg/sub".toList [] []
    "go_esx_exec".toList "./t.test".toList [] rfl rfl (by decide) (by decide) (by simp)
    (by decide) (by decide) (by decide) (by decide) (by decide) (by decide)).1
  ⟨h.1, h.2.imp (fun _ hc => ⟨hc.1, hc.2.1⟩)⟩

/-! ## Mirroring a directory (C9) -/

theorem entryRequests_target (lfs : LocalFS) (root : Str) (e : WalkEntry) (ev : Event)
    (h : ev ∈ entryRequests lfs root e) :
    ev.target = some (root ++ "/".toList ++ e.path)
      ∧ (e.kind = some .dir ∨ e.kind = some .regular) := by
  unfold entryRequests at h
  split at h
  · rename_i hk
    simp at h
    rcases h with h | h <;> subst h <;> exact ⟨by simp [Event.target], Or.inl hk⟩
  · rename_i hk
    split at h
    · simp at h
      rcases h with h | h | h <;> subst h <;> exact ⟨by simp [Event.target], Or.inr hk⟩
    · simp at h
  · simp at h

/-- C9, amended: let the host accept every request and have a root directory,
let the remote root `R` (the test directory) be an absolute path of plain
names with no file on the way to it and nothing below it, and let the local
path be one plain name that is a directory holding a well-formed tree whose
regular files can be read.  Then `putdir` returns; its requests are those of
the first loop, all about ancestors of `R` or `R` itself, followed by those of
the entries the walk visits before its first error; and for every such entry:
a directory at walk path `d` is a remote directory at `R/d`, a regular file at
walk path `f` is a remote file at `R/f` with the local bytes and mode, and for
an entry that is neither nothing exists at its remote path and no request is
about it.  When the local path does not exist or is not a directory, `putdir`
returns with the world unchanged, so without any request. -/
theorem putdir_mirrors_visited (srv : Server) (lfs : LocalFS) (cfg : Config) (src : Str)
    (w : World) :
    (∀ (m : Nat) (rs : List Str),
      lfs.stat src = some ⟨.dir, m⟩ →
      (∀ r, srv.refuses r = false) →
      plainName src = true →
      (lfs.tree src).wellFormed = true →
      rs ≠ [] → (∀ r ∈ rs, plainName r = true) →
      cfg.testdir = '/' :: stringsJoin rs "/".toList →
      w.fs "/".toList = some Node.dir →
      (∀ d ∈ chainDirs cfg.testdir, w.fs d = none ∨ w.fs d = some Node.dir) →
      (∀ q, w.fs (cfg.testdir ++ "/".toList ++ q) = none) →
      (∀ e ∈ visited (walk src (lfs.tree src)), e.kind = some .regular →
        (lfs.stat e.path).isSome ∧ (lfs.readFile e.path).isSome) →
      ∃ w1 chain, putdir srv lfs cfg src cfg.testdir w = .ok () w1
        ∧ w1.trace = w.trace ++ chain
            ++ ((visited (walk src (lfs.tree src))).map
                (entryRequests lfs cfg.testdir)).flatten
        ∧ (∀ ev ∈ chain, ∃ d ∈ chainDirs cfg.testdir, ev.target = some d)
        ∧ ∀ e ∈ visited (walk src (lfs.tree src)),
          (e.kind = some .dir →
            w1.fs (cfg.testdir ++ "/".toList ++ e.path) = some Node.dir)
          ∧ (e.kind = some .regular →
            ∃ st buf, lfs.stat e.path = some st ∧ lfs.readFile e.path = some buf
              ∧ w1.fs (cfg.testdir ++ "/".toList ++ e.path) = some (Node.file buf st.mode))
          ∧ (e.kind = some .other →
            w1.fs (cfg.testdir ++ "/".toList ++ e.path) = none
              ∧ ∀ ev ∈ chain ++ ((visited (walk src (lfs.tree src))).map
                    (entryRequests lfs cfg.testdir)).flatten,
                  ev.target ≠ some (cfg.testdir ++ "/".toList ++ e.path)))
      ∧ ((∀ m, lfs.stat src ≠ some ⟨.dir, m⟩) →
          putdir srv lfs cfg src cfg.testdir w = .ok () w
            ∧ (putdir srv lfs cfg src cfg.testdir w).world.trace = w.trace) := by
  constructor
  · intro m rs hstat hfree hsrc hwf hrs hplain hroot hslash hway hempty hlocal
    have hchain : chainDirs cfg.testdir = prefixDirs [] rs := by
      rw [hroot]
      exact chainDirs_abs rs hrs hplain
    have hrootIn : cfg.testdir ∈ prefixDirs [] rs := by
      rw [hroot]
      exact mem_prefixDirs_last rs hrs
    obtain ⟨w0, hc, dc, fc, chain, tc, pc⟩ := putdirChain_prefixDirs srv hfree rs [] w
      (fun n hn => ((plainName_iff n).1 (hplain n hn)).2.1)
      (by simpa using hslash)
      (by
        rw [← hchain]
        intro d hd c k hfile
        rcases hway d hd with h | h <;> rw [h] at hfile <;> cases hfile)
    have hjoin1 : stringsJoin [src] ['/'] = src := rfl
    obtain ⟨-, hnd, hpf⟩ := walk_facts cfg.testdir (lfs.tree src) [src] (by simp)
      (by simpa using hsrc) hwf
    rw [hjoin1] at hnd hpf
    have hrne : cfg.testdir ≠ [] := by
      rw [hroot]
      simp
    have hnd1 : ((visited (walk src (lfs.tree src))).map (fun e => e.path)).Nodup :=
      List.Nodup.sublist ((takeWhile_sublist_filter _ _).map _) hnd
    have hpf1 : parentsFirst cfg.testdir [cfg.testdir] (visited (walk src (lfs.tree src))) := by
      apply parentsFirst_takeWhile
      apply hpf
      refine ⟨cfg.testdir, by simp, ?_⟩
      have hx : cfg.testdir ++ "/".toList ++ src = cfg.testdir ++ '/' :: src := by simp
      rw [hx]
      exact parentDir_child _ src hrne ((plainName_iff src).1 hsrc).2.1
    have hempty0 : ∀ e ∈ visited (walk src (lfs.tree src)),
        w0.fs (cfg.testdir ++ "/".toList ++ e.path) = none := by
      intro e _
      rcases fc (cfg.testdir ++ "/".toList ++ e.path) with h | ⟨hm, _⟩
      · rw [h]
        exact hempty e.path
      · rw [← hchain] at hm
        exact absurd (List.prefix_append _ e.path) (chainDirs_not_below cfg.testdir _ hm)
    obtain ⟨w1, hw, hm, -, tw⟩ :=
      putdirWalk_accepting srv lfs cfg hfree (walk src (lfs.tree src)) [cfg.testdir] w0
        hnd1 hlocal hempty0
        (by
          intro d hd
          simp at hd
          rw [hd]
          exact dc _ hrootIn)
        hpf1
    refine ⟨w1, chain, by simp only [putdir, hstat, hchain, hc, hw], by rw [tw, tc], ?_, ?_⟩
    · intro ev hev
      rw [hchain]
      exact pc ev hev
    · intro e he
      have hme := hm e he
      refine ⟨?_, ?_, ?_⟩
      · intro hk
        rw [hme]
        simp only [mirrorNode, hk]
      · intro hk
        obtain ⟨hs, hr⟩ := hlocal e he hk
        obtain ⟨st, hst⟩ := Option.isSome_iff_exists.1 hs
        obtain ⟨buf, hbuf⟩ := Option.isSome_iff_exists.1 hr
        refine ⟨st, buf, hst, hbuf, ?_⟩
        rw [hme]
        simp only [mirrorNode, hk, hst, hbuf]
      · intro hk
        refine ⟨by rw [hme]; simp only [mirrorNode, hk], ?_⟩
        intro ev hev htarget
        rcases List.mem_append.1 hev with h | h
        · obtain ⟨d, hd, ht⟩ := pc ev h
          rw [ht] at htarget
          have hde : d = cfg.testdir ++ "/".toList ++ e.path := Option.some.inj htarget
          rw [← hchain, hde] at hd
          exact absurd (List.prefix_append _ e.path) (chainDirs_not_below cfg.testdir _ hd)
        · simp only [List.mem_flatten, List.mem_map] at h
          obtain ⟨l, ⟨e1, he1, hl⟩, hevl⟩ := h
          rw [← hl] at hevl
          obtain ⟨ht, hkind⟩ := entryRequests_target lfs cfg.testdir e1 ev hevl
          rw [ht] at htarget
          have hpath : e1.path = e.path := List.append_cancel_left (Option.some.inj htarget)
          have hsame : e1 = e :=
            List.inj_on_of_nodup_map hnd1 he1 he hpath
          rw [hsame, hk] at hkind
          rcases hkind with h | h <;> cases h
  · intro hno
    have hres : putdir srv lfs cfg src cfg.testdir w = .ok () w := by
      unfold putdir
      split
      · rename_i m hs
        exact absurd hs (hno m)
      · rfl
    exact ⟨hres, by rw [hres]; rfl⟩

/-- C9, as the claim states it, fails.  With a directory that cannot be read
between two files, `putdir` returns normally and the file after it, a regular
file of the tree that can be read, is never uploaded.  On a host that rejects
`Mkdir`, with a root directory given as a relative path, with a file on the
way to the remote root, or with a local path of two elements, `putdir` panics
and the local directory is not mirrored; with a local file that cannot be
read it ends the process. -/
theorem putdir_misses_entries :
    ((putdir demoServer blockedLocal demoConfig "testdata".toList demoConfig.testdir
          demoWorld).result = some ()
        ∧ (⟨"testdata/e.txt".toList, some .regular⟩ : WalkEntry)
            ∈ walk "testdata".toList (blockedLocal.tree "testdata".toList)
        ∧ blockedLocal.readFile "testdata/e.txt".toList = some [98, 121, 101]
        ∧ (putdir demoServer blockedLocal demoConfig "testdata".toList demoConfig.testdir
            demoWorld).world.fs "/tmp/src/pkg/sub/testdata/e.txt".toList = none
        ∧ Event.sftpCreate "/tmp/src/pkg/sub/testdata/e.txt".toList
            ∉ (putdir demoServer blockedLocal demoConfig "testdata".toList demoConfig.testdir
                demoWorld).world.trace)
      ∧ ((putdir noMkdirServer demoLocal demoConfig "testdata".toList demoConfig.testdir
            demoWorld).panicked = true
          ∧ (putdir noMkdirServer demoLocal demoConfig "testdata".toList demoConfig.testdir
              demoWorld).world.fs "/tmp/src/pkg/sub/testdata".toList = none)
      ∧ ((putdir demoServer demoLocal relativeConfig "testdata".toList relativeConfig.testdir
            demoWorld).panicked = true
          ∧ (putdir demoServer demoLocal relativeConfig "testdata".toList
              relativeConfig.testdir demoWorld).world.fs "work/src/pkg/sub/testdata".toList
            = none)
      ∧ ((putdir demoServer demoLocal demoConfig "testdata".toList demoConfig.testdir
            fileInWayWorld).panicked = true
          ∧ (putdir demoServer demoLocal demoConfig "testdata".toList demoConfig.testdir
              fileInWayWorld).world.fs "/tmp/src/pkg/sub/testdata".toList = none)
      ∧ ((putdir demoServer nestedLocal demoConfig "fixtures/data".toList demoConfig.testdir
            demoWorld).panicked = true
          ∧ (putdir demoServer nestedLocal demoConfig "fixtures/data".toList
              demoConfig.testdir demoWorld).world.fs "/tmp/src/pkg/sub/fixtures/data".toList
            = none)
      ∧ (putdir demoServer unreadableLocal demoConfig "testdata".toList demoConfig.testdir
            demoWorld).exited = true
      ∧ (putdir demoServer unreadableLocal demoConfig "testdata".toList demoConfig.testdir
            demoWorld).world.fs "/tmp/src/pkg/sub/testdata/a.txt".toList = none := by
  decide

theorem putdir_mirrors_visited_witness :
    (∃ w1, putdir demoServer demoLocal demoConfig "testdata".toList demoConfig.testdir demoWorld
          = .ok () w1
        ∧ w1.fs "/tmp/src/pkg/sub/testdata/d".toList = some Node.dir
        ∧ w1.fs "/tmp/src/pkg/sub/testdata/a.txt".toList = some (Node.file [104, 105] 420)
        ∧ w1.fs "/tmp/src/pkg/sub/testdata/d/link".toList = none)
      ∧ putdir demoServer demoLocal demoConfig "missing".toList demoConfig.testdir demoWorld
          = .ok () demoWorld := by
  have h := putdir_mirrors_visited demoServer demoLocal demoConfig "testdata".toList demoWorld
  have h2 := putdir_mirrors_visited demoServer demoLocal demoConfig "missing".toList demoWorld
  refine ⟨?_, (h2.2 (fun m hm => by simp [demoLocal, demoStat] at hm)).1⟩
  have hempty : ∀ q, demoWorld.fs (demoConfig.testdir ++ "/".toList ++ q) = none := by
    intro q
    simp [demoWorld, demoConfig, RemoteFS.get]
  obtain ⟨w1, chain, hw, -, -, hall⟩ := h.1 493
    ["tmp".toList, "src".toList, "pkg".toList, "sub".toList] rfl (fun _ => rfl) (by decide)
    (by decide) (by decide) (by decide) (by decide) (by decide) (by decide) hempty (by decide)
  refine ⟨w1, hw, ?_, ?_, ?_⟩
  · exact (hall ⟨"testdata/d".toList, some .dir⟩ (by decide)).1 rfl
  · obtain ⟨st, buf, hst, hbuf, hfs⟩ :=
      (hall ⟨"testdata/a.txt".toList, some .regular⟩ (by decide)).2.1 rfl
    have e1 : st = ⟨.regular, 420⟩ := (Option.some.inj hst).symm
    have e2 : buf = [104, 105] := (Option.some.inj hbuf).symm
    subst e1 e2
    exact hfs
  · exact ((hall ⟨"testdata/d/link".toList, some .other⟩ (by decide)).2.2 rfl).1

end GoEsxExec
